import Mathlib

/-!
Verification of the NoTraceEdit request-transform pipeline (src/main.py).

The development shallowly embeds the core of `MessageEditor`:

* `extract_fetch_data` (lines 40-86): three fixed-shape regex scans
  (`fetch\("(https://discord\.com/api/v\d+/channels/\d+/messages)"`,
  `"headers":\s*(\x7b[^\x7d]+\x7d)`, `"body":\s*"(\x7b[^\x7d]+\x7d)"`),
  Python `str.replace`, `json.loads`, and the `nonce` presence check.
* `edit_message_without_mark` (lines 88-130): the shallow `dict.copy`,
  the `content`/`nonce` overwrite, `json.dumps` (compact and `indent=2`),
  the quote escaping, and the browser fetch-snippet template.
* `send_request_directly` (lines 132-161): dispatch outcome mapping.
* the interactive flow around them (lines 174-342), as a function of the
  scripted user inputs, recording the observable prompts as events.
* a small Python heap model for the aliasing behaviour of `dict.copy`.

Python `dict` values decoded from JSON are modelled by the mutual type
`Json`/`JArr`/`JObj`; `JObj` keeps insertion order exactly as CPython
dicts do.  Python machine-level details that cannot occur here (lone
surrogates in strings) are outside the model.  Number atoms keep their
source lexeme: the program never interprets numeric values, it only
re-serializes them.

Recursive functions that must evaluate inside the kernel take an explicit
fuel argument (first, structurally decreasing); wrappers supply a fuel
that provably suffices.
-/

set_option maxRecDepth 20000
set_option maxHeartbeats 2000000

mutual

/-- Structured data values as produced by Python `json.loads`:
strings, numbers (kept as their lexeme, see the header comment),
booleans, `null`/`None`, arrays and objects. -/
inductive Json where
  | str (s : String)
  | num (lex : String)
  | bool (b : Bool)
  | null
  | arr (elems : JArr)
  | obj (fields : JObj)
  deriving DecidableEq, Repr

/-- Array part of `Json`. -/
inductive JArr where
  | nil
  | cons (hd : Json) (tl : JArr)
  deriving DecidableEq, Repr

/-- Object part of `Json`: an insertion-ordered key/value sequence,
exactly the observable state of a CPython `dict` with `Json` values. -/
inductive JObj where
  | nil
  | cons (key : String) (val : Json) (tl : JObj)
  deriving DecidableEq, Repr

end

/-- `o[k]` lookup on a Python dict (first matching key; dicts built by
`json.loads` or by assignment never hold duplicates). -/
def JObj.lookup : JObj → String → Option Json
  | .nil, _ => none
  | .cons k v t, key => if k = key then some v else t.lookup key

/-- Python `k in d`. -/
def JObj.hasKey (o : JObj) (key : String) : Bool :=
  (o.lookup key).isSome

/-- Python `d[k] = v`: overwrite the value in place if the key exists
(keeping its insertion position), otherwise append at the end. -/
def JObj.set : JObj → String → Json → JObj
  | .nil, key, val => .cons key val .nil
  | .cons k v t, key, val =>
    if k = key then .cons k val t else .cons k v (t.set key val)

/-- Python `d.get(k, dflt)`. -/
def JObj.getD (o : JObj) (key : String) (dflt : Json) : Json :=
  (o.lookup key).getD dflt

/-- Keys of an object, in order. -/
def JObj.keys : JObj → List String
  | .nil => []
  | .cons k _ t => k :: t.keys

theorem JObj.lookup_set_self : ∀ (o : JObj) (k : String) (v : Json),
    (o.set k v).lookup k = some v
  | .nil, k, v => by simp [JObj.set, JObj.lookup]
  | .cons k' v' t, k, v => by
    by_cases h : k' = k
    · simp [JObj.set, JObj.lookup, h]
    · simp [JObj.set, JObj.lookup, h, JObj.lookup_set_self t k v]

theorem JObj.lookup_set_ne : ∀ (o : JObj) (k k' : String) (v : Json), k ≠ k' →
    (o.set k v).lookup k' = o.lookup k'
  | .nil, k, k', v, h => by simp [JObj.set, JObj.lookup, h]
  | .cons k2 v2 t, k, k', v, h => by
    by_cases h2 : k2 = k
    · subst h2; simp [JObj.set, JObj.lookup, h]
    · simp [JObj.set, JObj.lookup, h2, JObj.lookup_set_ne t k k' v h]

theorem JObj.set_ne_nil (o : JObj) (k : String) (v : Json) :
    o.set k v ≠ JObj.nil := by
  cases o with
  | nil => simp [JObj.set]
  | cons k' v' t =>
    by_cases h : k' = k <;> simp [JObj.set, h]

/-! ## Character classes and Python `str.replace` -/

/-- JSON whitespace, as accepted by `json.loads` between tokens. -/
def isJWs (c : Char) : Bool :=
  c = ' ' || c = '\t' || c = '\n' || c = '\r'

/-- Python `re` `\s` on the characters that can occur here (the ASCII
whitespace class; the additional Unicode whitespace accepted by `re` is
immaterial to every statement below). -/
def isReWs (c : Char) : Bool :=
  c = ' ' || c = '\t' || c = '\n' || c = '\r' || c.toNat = 11 || c.toNat = 12

/-- ASCII digit, the `\d` of the two URL groups. -/
def isDig (c : Char) : Bool :=
  '0' ≤ c && c ≤ '9'

/-- Fuel-indexed core of Python `str.replace(old, new)`: replace
non-overlapping occurrences left to right.  Intended for non-empty
`old`; each step consumes at least one character, so fuel equal to the
input length suffices. -/
def replF (old new : List Char) : Nat → List Char → List Char
  | _, [] => []
  | 0, s => s
  | f+1, c :: rest =>
    if old.isPrefixOf (c :: rest) then
      new ++ replF old new f (List.drop (old.length - 1) rest)
    else c :: replF old new f rest

/-- Python `s.replace(old, new)` for non-empty `old`. -/
def pyReplace (s old new : List Char) : List Char :=
  replF old new s.length s

/-! ## `json.dumps` (default separators, `ensure_ascii=True`) -/

/-- Lowercase hex digit, for `\uXXXX` escapes. -/
def hexDigL (n : Nat) : Char :=
  if n < 10 then Char.ofNat (48 + n) else Char.ofNat (87 + n)

/-- Four lowercase hex digits of `n % 0x10000`. -/
def hex4 (n : Nat) : List Char :=
  [hexDigL (n / 4096 % 16), hexDigL (n / 256 % 16), hexDigL (n / 16 % 16), hexDigL (n % 16)]

/-- The escape `json.dumps` (with its default `ensure_ascii=True`)
applies to one character: `\"` `\\`, the short control escapes, `\uXXXX`
for the remaining characters outside `0x20..0x7E`, and a surrogate pair
for the astral plane. -/
def escJChar (c : Char) : List Char :=
  if c = '"' then ['\\', '"']
  else if c = '\\' then ['\\', '\\']
  else if c = '\n' then ['\\', 'n']
  else if c = '\r' then ['\\', 'r']
  else if c = '\t' then ['\\', 't']
  else if c.toNat = 8 then ['\\', 'b']
  else if c.toNat = 12 then ['\\', 'f']
  else if c.toNat < 32 || 126 < c.toNat then
    if c.toNat < 65536 then '\\' :: 'u' :: hex4 c.toNat
    else '\\' :: 'u' :: hex4 (55296 + (c.toNat - 65536) / 1024) ++
         '\\' :: 'u' :: hex4 (56320 + (c.toNat - 65536) % 1024)
  else [c]

/-- `json.dumps` escaping of a whole string (without the quotes). -/
def escJ : List Char → List Char
  | [] => []
  | c :: t => escJChar c ++ escJ t

theorem escJ_append (a b : List Char) : escJ (a ++ b) = escJ a ++ escJ b := by
  induction a with
  | nil => simp [escJ]
  | cons c t ih => simp [escJ, ih]

mutual

/-- Fuel-indexed `json.dumps` of a value, compact form (the default
separators `", "` and `": "`), as used for the request body. -/
def dV : Nat → Json → List Char
  | 0, _ => []
  | f+1, j =>
    match j with
    | .str s => '"' :: escJ s.data ++ ['"']
    | .num l => l.data
    | .bool true => "true".data
    | .bool false => "false".data
    | .null => "null".data
    | .arr a => '[' :: dA f a
    | .obj o => '\x7b' :: dO f o

/-- Elements of an array under `dV`, including the closing bracket. -/
def dA : Nat → JArr → List Char
  | 0, _ => []
  | f+1, .nil => [']']
  | f+1, .cons h .nil => dV f h ++ [']']
  | f+1, .cons h t => dV f h ++ ", ".data ++ dA f t

/-- Fields of an object under `dV`, including the closing brace. -/
def dO : Nat → JObj → List Char
  | 0, _ => []
  | f+1, .nil => ['\x7d']
  | f+1, .cons k v .nil => '"' :: escJ k.data ++ "\": ".data ++ dV f v ++ ['\x7d']
  | f+1, .cons k v t => '"' :: escJ k.data ++ "\": ".data ++ dV f v ++ ", ".data ++ dO f t

end

mutual

/-- Computable depth bound for `Json`, used as fuel for the
fuel-indexed serializers (each `dV`-step descends one level). -/
def jsize : Json → Nat
  | .str _ => 1
  | .num _ => 1
  | .bool _ => 1
  | .null => 1
  | .arr a => 1 + jsizeA a
  | .obj o => 1 + jsizeO o

/-- Depth bound for `JArr`. -/
def jsizeA : JArr → Nat
  | .nil => 1
  | .cons h t => 1 + jsize h + jsizeA t

/-- Depth bound for `JObj`. -/
def jsizeO : JObj → Nat
  | .nil => 1
  | .cons _ v t => 1 + jsize v + jsizeO t

end

theorem jsize_pos (j : Json) : 0 < jsize j := by
  cases j <;> simp [jsize]

theorem jsizeA_pos (a : JArr) : 0 < jsizeA a := by
  cases a <;> simp [jsizeA]

theorem jsizeO_pos (o : JObj) : 0 < jsizeO o := by
  cases o <;> simp [jsizeO]

mutual

theorem dV_irr : ∀ (j : Json) (f g : Nat), jsize j ≤ f → jsize j ≤ g → dV f j = dV g j
  | j, 0, _, hf, _ => absurd (Nat.lt_of_lt_of_le (jsize_pos j) hf) (by omega)
  | j, _+1, 0, _, hg => absurd (Nat.lt_of_lt_of_le (jsize_pos j) hg) (by omega)
  | .str s, _+1, _+1, _, _ => by simp [dV]
  | .num l, _+1, _+1, _, _ => by simp [dV]
  | .bool true, _+1, _+1, _, _ => by simp [dV]
  | .bool false, _+1, _+1, _, _ => by simp [dV]
  | .null, _+1, _+1, _, _ => by simp [dV]
  | .arr a, f+1, g+1, hf, hg => by
    have hf' : jsizeA a ≤ f := by simp [jsize] at hf; omega
    have hg' : jsizeA a ≤ g := by simp [jsize] at hg; omega
    simp [dV, dA_irr a f g hf' hg']
  | .obj o, f+1, g+1, hf, hg => by
    have hf' : jsizeO o ≤ f := by simp [jsize] at hf; omega
    have hg' : jsizeO o ≤ g := by simp [jsize] at hg; omega
    simp [dV, dO_irr o f g hf' hg']

theorem dA_irr : ∀ (a : JArr) (f g : Nat), jsizeA a ≤ f → jsizeA a ≤ g → dA f a = dA g a
  | a, 0, _, hf, _ => absurd (Nat.lt_of_lt_of_le (jsizeA_pos a) hf) (by omega)
  | a, _+1, 0, _, hg => absurd (Nat.lt_of_lt_of_le (jsizeA_pos a) hg) (by omega)
  | .nil, _+1, _+1, _, _ => by simp [dA]
  | .cons h .nil, f+1, g+1, hf, hg => by
    have h1 : jsize h ≤ f := by simp [jsizeA] at hf; omega
    have h2 : jsize h ≤ g := by simp [jsizeA] at hg; omega
    simp [dA, dV_irr h f g h1 h2]
  | .cons h (.cons h2 t2), f+1, g+1, hf, hg => by
    have h1 : jsize h ≤ f := by simp [jsizeA] at hf; omega
    have h1' : jsize h ≤ g := by simp [jsizeA] at hg; omega
    have h3 : jsizeA (JArr.cons h2 t2) ≤ f := by simp [jsizeA] at hf ⊢; omega
    have h3' : jsizeA (JArr.cons h2 t2) ≤ g := by simp [jsizeA] at hg ⊢; omega
    simp [dA, dV_irr h f g h1 h1', dA_irr (JArr.cons h2 t2) f g h3 h3']

theorem dO_irr : ∀ (o : JObj) (f g : Nat), jsizeO o ≤ f → jsizeO o ≤ g → dO f o = dO g o
  | o, 0, _, hf, _ => absurd (Nat.lt_of_lt_of_le (jsizeO_pos o) hf) (by omega)
  | o, _+1, 0, _, hg => absurd (Nat.lt_of_lt_of_le (jsizeO_pos o) hg) (by omega)
  | .nil, _+1, _+1, _, _ => by simp [dO]
  | .cons k v .nil, f+1, g+1, hf, hg => by
    have h1 : jsize v ≤ f := by simp [jsizeO] at hf; omega
    have h2 : jsize v ≤ g := by simp [jsizeO] at hg; omega
    simp [dO, dV_irr v f g h1 h2]
  | .cons k v (.cons k2 v2 t2), f+1, g+1, hf, hg => by
    have h1 : jsize v ≤ f := by simp [jsizeO] at hf; omega
    have h1' : jsize v ≤ g := by simp [jsizeO] at hg; omega
    have h3 : jsizeO (JObj.cons k2 v2 t2) ≤ f := by simp [jsizeO] at hf ⊢; omega
    have h3' : jsizeO (JObj.cons k2 v2 t2) ≤ g := by simp [jsizeO] at hg ⊢; omega
    simp [dO, dV_irr v f g h1 h1', dO_irr (JObj.cons k2 v2 t2) f g h3 h3']

end

/-- `json.dumps(j)` with the default settings, on characters. -/
def dumpsV (j : Json) : List Char := dV (jsize j) j

/-- `dumpsV` restricted to an object's fields (with closing brace). -/
def dumpsO (o : JObj) : List Char := dO (jsizeO o) o

/-- `dumpsV` restricted to an array's elements (with closing bracket). -/
def dumpsA (a : JArr) : List Char := dA (jsizeA a) a

theorem dumpsV_str (s : String) : dumpsV (Json.str s) = '"' :: escJ s.data ++ ['"'] := by
  rw [dumpsV]; simp [jsize, dV]

theorem dumpsV_num (l : String) : dumpsV (Json.num l) = l.data := by
  rw [dumpsV]; simp [jsize, dV]

theorem dumpsV_true : dumpsV (Json.bool true) = "true".data := by
  rw [dumpsV]; simp [jsize, dV]

theorem dumpsV_false : dumpsV (Json.bool false) = "false".data := by
  rw [dumpsV]; simp [jsize, dV]

theorem dumpsV_null : dumpsV Json.null = "null".data := by
  rw [dumpsV]; simp [jsize, dV]

theorem dumpsV_arr (a : JArr) : dumpsV (Json.arr a) = '[' :: dumpsA a := by
  rw [dumpsV, dumpsA, show jsize (Json.arr a) = jsizeA a + 1 by simp [jsize]; omega]
  simp [dV, dA_irr a (jsizeA a) (jsizeA a) (by omega) (by omega)]

theorem dumpsV_obj (o : JObj) : dumpsV (Json.obj o) = '\x7b' :: dumpsO o := by
  rw [dumpsV, dumpsO, show jsize (Json.obj o) = jsizeO o + 1 by simp [jsize]; omega]
  simp [dV]

theorem dumpsA_nil : dumpsA JArr.nil = [']'] := by
  rw [dumpsA]; simp [jsizeA, dA]

theorem dumpsA_single (h : Json) : dumpsA (JArr.cons h JArr.nil) = dumpsV h ++ [']'] := by
  rw [dumpsA, dumpsV, show jsizeA (JArr.cons h JArr.nil) = (jsize h + 1) + 1 by simp [jsizeA]; omega]
  simp [dA, dV_irr h (jsize h + 1) (jsize h) (by omega) (by omega)]

theorem dumpsA_cons2 (h h2 : Json) (t : JArr) :
    dumpsA (JArr.cons h (JArr.cons h2 t)) =
      dumpsV h ++ ", ".data ++ dumpsA (JArr.cons h2 t) := by
  rw [dumpsA, dumpsV, dumpsA,
    show jsizeA (JArr.cons h (JArr.cons h2 t)) = (jsize h + jsizeA (JArr.cons h2 t)) + 1 by
      simp [jsizeA]; omega]
  simp [dA, dV_irr h (jsize h + jsizeA (JArr.cons h2 t)) (jsize h) (by omega) (by omega),
    dA_irr (JArr.cons h2 t) (jsize h + jsizeA (JArr.cons h2 t)) (jsizeA (JArr.cons h2 t))
      (by omega) (by omega)]

theorem dumpsO_nil : dumpsO JObj.nil = ['\x7d'] := by
  rw [dumpsO]; simp [jsizeO, dO]

theorem dumpsO_single (k : String) (v : Json) :
    dumpsO (JObj.cons k v JObj.nil) = '"' :: escJ k.data ++ "\": ".data ++ dumpsV v ++ ['\x7d'] := by
  rw [dumpsO, dumpsV, show jsizeO (JObj.cons k v JObj.nil) = (jsize v + 1) + 1 by simp [jsizeO]; omega]
  simp [dO, dV_irr v (jsize v + 1) (jsize v) (by omega) (by omega)]

theorem dumpsO_cons2 (k : String) (v : Json) (k2 : String) (v2 : Json) (t : JObj) :
    dumpsO (JObj.cons k v (JObj.cons k2 v2 t)) =
      '"' :: escJ k.data ++ "\": ".data ++ dumpsV v ++ ", ".data ++ dumpsO (JObj.cons k2 v2 t) := by
  rw [dumpsO, dumpsV, dumpsO,
    show jsizeO (JObj.cons k v (JObj.cons k2 v2 t)) = (jsize v + jsizeO (JObj.cons k2 v2 t)) + 1 by
      simp [jsizeO]; omega]
  simp [dO, dV_irr v (jsize v + jsizeO (JObj.cons k2 v2 t)) (jsize v) (by omega) (by omega),
    dO_irr (JObj.cons k2 v2 t) (jsize v + jsizeO (JObj.cons k2 v2 t)) (jsizeO (JObj.cons k2 v2 t))
      (by omega) (by omega)]

/-! ## `json.dumps(..., indent=2)`, used for the headers block of the
fetch snippet, and Python `str()` interpolation -/

/-- Indentation prefix at nesting level `lv` for `indent=2`. -/
def ind2 (lv : Nat) : List Char := List.replicate (2 * lv) ' '

mutual

/-- Fuel-indexed `json.dumps(j, indent=2)` of a value whose container
sits at nesting level `lv` (separators `","`/`": "`, newline plus
indentation between items, empty containers inline). -/
def iV : Nat → Nat → Json → List Char
  | 0, _, _ => []
  | _+1, _, .str s => '"' :: escJ s.data ++ ['"']
  | _+1, _, .num l => l.data
  | _+1, _, .bool true => "true".data
  | _+1, _, .bool false => "false".data
  | _+1, _, .null => "null".data
  | _+1, _, .arr .nil => "[]".data
  | f+1, lv, .arr a => '[' :: '\n' :: ind2 (lv+1) ++ iA f (lv+1) a
  | _+1, _, .obj .nil => "\x7b\x7d".data
  | f+1, lv, .obj o => '\x7b' :: '\n' :: ind2 (lv+1) ++ iO f (lv+1) o

/-- Items of a non-empty array at item level `lv`, with the closing
bracket aligned one level out. -/
def iA : Nat → Nat → JArr → List Char
  | 0, _, _ => []
  | _+1, _, .nil => []
  | f+1, lv, .cons h .nil => iV f lv h ++ '\n' :: ind2 (lv-1) ++ [']']
  | f+1, lv, .cons h t => iV f lv h ++ ',' :: '\n' :: ind2 lv ++ iA f lv t

/-- Fields of a non-empty object at item level `lv`. -/
def iO : Nat → Nat → JObj → List Char
  | 0, _, _ => []
  | _+1, _, .nil => []
  | f+1, lv, .cons k v .nil =>
    '"' :: escJ k.data ++ "\": ".data ++ iV f lv v ++ '\n' :: ind2 (lv-1) ++ ['\x7d']
  | f+1, lv, .cons k v t =>
    '"' :: escJ k.data ++ "\": ".data ++ iV f lv v ++ ',' :: '\n' :: ind2 lv ++ iO f lv t

end

/-- `json.dumps(Json.obj o, indent=2)` — the `headers_json` of
`edit_message_without_mark`. -/
def dumpsInd2 (o : JObj) : List Char := iV (jsize (Json.obj o)) 0 (Json.obj o)

/-- Escape of one character inside a Python `repr` string (single-quote
style).  Covers the characters that occur in practice (backslash, quote,
and the common control characters); `repr`'s further escapes for exotic
control characters are outside the model. -/
def pyReprEscChar (c : Char) : List Char :=
  if c = '\\' then ['\\', '\\']
  else if c = '\'' then ['\\', '\'']
  else if c = '\n' then ['\\', 'n']
  else if c = '\r' then ['\\', 'r']
  else if c = '\t' then ['\\', 't']
  else [c]

/-- `pyReprEscChar` over a string. -/
def pyReprEsc : List Char → List Char
  | [] => []
  | c :: t => pyReprEscChar c ++ pyReprEsc t

mutual

/-- Fuel-indexed Python `repr` of a `json.loads` value (dict/list
literals with single-quoted strings), as f-string interpolation would
render a non-string header value. -/
def pyReprV : Nat → Json → List Char
  | 0, _ => []
  | _+1, .str s => '\'' :: pyReprEsc s.data ++ ['\'']
  | _+1, .num l => l.data
  | _+1, .bool true => "True".data
  | _+1, .bool false => "False".data
  | _+1, .null => "None".data
  | f+1, .arr a => '[' :: pyReprA f a
  | f+1, .obj o => '\x7b' :: pyReprO f o

/-- Elements of a list `repr`, with closing bracket. -/
def pyReprA : Nat → JArr → List Char
  | 0, _ => []
  | _+1, .nil => [']']
  | f+1, .cons h .nil => pyReprV f h ++ [']']
  | f+1, .cons h t => pyReprV f h ++ ", ".data ++ pyReprA f t

/-- Entries of a dict `repr`, with closing brace. -/
def pyReprO : Nat → JObj → List Char
  | 0, _ => []
  | _+1, .nil => ['\x7d']
  | f+1, .cons k v .nil => '\'' :: pyReprEsc k.data ++ "': ".data ++ pyReprV f v ++ ['\x7d']
  | f+1, .cons k v t => '\'' :: pyReprEsc k.data ++ "': ".data ++ pyReprV f v ++ ", ".data ++ pyReprO f t

end

/-- Python `str(x)` of a `json.loads` value, as an f-string renders it:
strings verbatim, `True`/`False`/`None`, numbers by their lexeme, and
containers by `repr`. -/
def pyStr : Json → List Char
  | .str s => s.data
  | .num l => l.data
  | .bool true => "True".data
  | .bool false => "False".data
  | .null => "None".data
  | .arr a => pyReprV (jsize (Json.arr a)) (Json.arr a)
  | .obj o => pyReprV (jsize (Json.obj o)) (Json.obj o)

/-! ## `json.loads` -/

/-- Value of a hex digit (both cases), for `\uXXXX` escapes. -/
def hexVal (c : Char) : Option Nat :=
  if '0' ≤ c && c ≤ '9' then some (c.toNat - 48)
  else if 'a' ≤ c && c ≤ 'f' then some (c.toNat - 87)
  else if 'A' ≤ c && c ≤ 'F' then some (c.toNat - 55)
  else none

/-- Read four hex digits. -/
def parseHex4 : List Char → Option (Nat × List Char)
  | a :: b :: c :: d :: rest =>
    match hexVal a, hexVal b, hexVal c, hexVal d with
    | some x, some y, some z, some w => some (4096 * x + 256 * y + 16 * z + w, rest)
    | _, _, _, _ => none
  | _ => none

/-- Fuel-indexed body of a JSON string (after the opening quote), with
the strict-mode rules of `json.loads`: a raw control character is an
error, `\uXXXX` escapes combine surrogate pairs.  Escapes that would
produce a lone surrogate — which Python keeps as an unpaired surrogate
code unit, a value a Unicode scalar cannot carry — are outside the model
and fail. -/
def parseStrBody : Nat → List Char → Option (List Char × List Char)
  | 0, _ => none
  | _+1, [] => none
  | f+1, c :: rest =>
    if c = '"' then some ([], rest)
    else if c = '\\' then
      match rest with
      | [] => none
      | e :: r2 =>
        if e = '"' then (parseStrBody f r2).map (fun p => ('"' :: p.1, p.2))
        else if e = '\\' then (parseStrBody f r2).map (fun p => ('\\' :: p.1, p.2))
        else if e = '/' then (parseStrBody f r2).map (fun p => ('/' :: p.1, p.2))
        else if e = 'b' then (parseStrBody f r2).map (fun p => ('\x08' :: p.1, p.2))
        else if e = 'f' then (parseStrBody f r2).map (fun p => ('\x0c' :: p.1, p.2))
        else if e = 'n' then (parseStrBody f r2).map (fun p => ('\n' :: p.1, p.2))
        else if e = 'r' then (parseStrBody f r2).map (fun p => ('\r' :: p.1, p.2))
        else if e = 't' then (parseStrBody f r2).map (fun p => ('\t' :: p.1, p.2))
        else if e = 'u' then
          match parseHex4 r2 with
          | none => none
          | some (n, r3) =>
            if 55296 ≤ n && n < 56320 then
              match r3 with
              | '\\' :: 'u' :: r4 =>
                match parseHex4 r4 with
                | some (m, r5) =>
                  if 56320 ≤ m && m < 57344 then
                    (parseStrBody f r5).map
                      (fun p => (Char.ofNat (65536 + (n - 55296) * 1024 + (m - 56320)) :: p.1, p.2))
                  else none
                | none => none
              | _ => none
            else if 56320 ≤ n && n < 57344 then none
            else (parseStrBody f r3).map (fun p => (Char.ofNat n :: p.1, p.2))
        else none
    else if c.toNat < 32 then none
    else (parseStrBody f rest).map (fun p => (c :: p.1, p.2))

/-- Longest digit run. -/
def spanDigits : List Char → List Char × List Char
  | [] => ([], [])
  | c :: t =>
    if isDig c then
      let p := spanDigits t
      (c :: p.1, p.2)
    else ([], c :: t)

/-- Optional fractional group `(\.\d+)?` of the scanner's number regex:
consumed only when the dot is followed by at least one digit. -/
def parseFrac (s : List Char) : List Char × List Char :=
  match s with
  | '.' :: r =>
    match spanDigits r with
    | ([], _) => ([], s)
    | (ds, r2) => ('.' :: ds, r2)
  | _ => ([], s)

/-- Optional exponent group `([eE][-+]?\d+)?`: consumed only when the
exponent letter (and optional sign) is followed by at least one digit. -/
def parseExp (s : List Char) : List Char × List Char :=
  match s with
  | c :: r =>
    if c = 'e' || c = 'E' then
      match r with
      | d :: rr =>
        if d = '+' || d = '-' then
          match spanDigits rr with
          | ([], _) => ([], s)
          | (ds, r3) => (c :: d :: ds, r3)
        else
          match spanDigits r with
          | ([], _) => ([], s)
          | (ds, r3) => (c :: ds, r3)
      | [] => ([], s)
    else ([], s)
  | [] => ([], s)

/-- Optional fraction and exponent groups after the integer part:
the lexeme is `pre` plus whatever the two groups consume. -/
def parseNumTail (pre afterInt : List Char) : List Char × List Char :=
  (pre ++ (parseFrac afterInt).1 ++ (parseExp (parseFrac afterInt).2).1,
   (parseExp (parseFrac afterInt).2).2)

/-- Integer part `(?:0|[1-9]\d*)` (after an optional already-consumed
minus sign `neg`), then fraction and exponent. -/
def parseNumInt (neg : List Char) (c : Char) (r : List Char) :
    Option (List Char × List Char) :=
  if c = '0' then some (parseNumTail (neg ++ ['0']) r)
  else if isDig c then
    some (parseNumTail (neg ++ c :: (spanDigits r).1) (spanDigits r).2)
  else none

/-- The scanner's `NUMBER_RE`, `(-?(?:0|[1-9]\d*))(\.\d+)?([eE][-+]?\d+)?`,
returning the matched lexeme and the remainder. -/
def parseNumLex (s : List Char) : Option (List Char × List Char) :=
  match s with
  | [] => none
  | c :: r =>
    if c = '-' then
      match r with
      | [] => none
      | c2 :: r2 => parseNumInt ['-'] c2 r2
    else parseNumInt [] c r

/-- Number of entries of an object. -/
def JObj.len : JObj → Nat
  | .nil => 0
  | .cons _ _ t => t.len + 1

/-- Last value stored under `k` in `o`, defaulting to `v`. -/
def lastValD : JObj → String → Json → Json
  | .nil, _, v => v
  | .cons k' v' t, k, v => if k' = k then lastValD t k v' else lastValD t k v

/-- Drop every entry with key `k`. -/
def removeKey : JObj → String → JObj
  | .nil, _ => .nil
  | .cons k' v' t, k => if k' = k then removeKey t k else .cons k' v' (removeKey t k)

/-- Fuel-indexed duplicate resolution of `dict(pairs)`: each key keeps
its first position but its last value, as CPython dicts do. -/
def dedupF : Nat → JObj → JObj
  | _, .nil => .nil
  | 0, o => o
  | f+1, .cons k v t => .cons k (lastValD t k v) (dedupF f (removeKey t k))

theorem removeKey_len_le : ∀ (o : JObj) (k : String), (removeKey o k).len ≤ o.len
  | .nil, _ => Nat.le_refl _
  | .cons k' v' t, k => by
    by_cases h : k' = k
    · simp only [removeKey, h, if_pos rfl, JObj.len]
      exact Nat.le_trans (removeKey_len_le t k) (Nat.le_succ _)
    · simp only [removeKey, h, if_neg h, JObj.len]
      exact Nat.succ_le_succ (removeKey_len_le t k)

/-- Duplicate-key resolution of the `dict` constructor. -/
def dedupO (o : JObj) : JObj := dedupF o.len o

mutual

/-- Fuel-indexed value scanner of `json.loads` (`scan_once`): dispatch
on the first character; whitespace around nested tokens is handled
where the Python scanner handles it. -/
def parseVal : Nat → List Char → Option (Json × List Char)
  | 0, _ => none
  | f+1, s =>
    match s with
    | [] => none
    | '"' :: r =>
      match parseStrBody (r.length + 1) r with
      | some (cs, rest) => some (.str (String.mk cs), rest)
      | none => none
    | '\x7b' :: r =>
      match List.dropWhile isJWs r with
      | '\x7d' :: r2 => some (.obj .nil, r2)
      | r1 =>
        match parseFields f r1 with
        | some (fs, rest) => some (.obj (dedupO fs), rest)
        | none => none
    | '[' :: r =>
      match List.dropWhile isJWs r with
      | ']' :: r2 => some (.arr .nil, r2)
      | r1 =>
        match parseElems f r1 with
        | some (es, rest) => some (.arr es, rest)
        | none => none
    | _ =>
      if "true".data.isPrefixOf s then some (.bool true, s.drop 4)
      else if "false".data.isPrefixOf s then some (.bool false, s.drop 5)
      else if "null".data.isPrefixOf s then some (.null, s.drop 4)
      else
        match parseNumLex s with
        | some (lex, rest) => some (.num (String.mk lex), rest)
        | none =>
          if "NaN".data.isPrefixOf s then some (.num "NaN", s.drop 3)
          else if "Infinity".data.isPrefixOf s then some (.num "Infinity", s.drop 8)
          else if "-Infinity".data.isPrefixOf s then some (.num "-Infinity", s.drop 9)
          else none

/-- Fields of a non-empty object after its opening brace and leading
whitespace. -/
def parseFields : Nat → List Char → Option (JObj × List Char)
  | 0, _ => none
  | f+1, s =>
    match s with
    | '"' :: r =>
      match parseStrBody (r.length + 1) r with
      | some (kcs, r1) =>
        match List.dropWhile isJWs r1 with
        | ':' :: r3 =>
          match parseVal f (List.dropWhile isJWs r3) with
          | some (v, r5) =>
            match List.dropWhile isJWs r5 with
            | ',' :: r7 =>
              match parseFields f (List.dropWhile isJWs r7) with
              | some (fs, r9) => some (.cons (String.mk kcs) v fs, r9)
              | none => none
            | '\x7d' :: r7 => some (.cons (String.mk kcs) v .nil, r7)
            | _ => none
          | none => none
        | _ => none
      | none => none
    | _ => none

/-- Elements of a non-empty array after its opening bracket and leading
whitespace. -/
def parseElems : Nat → List Char → Option (JArr × List Char)
  | 0, _ => none
  | f+1, s =>
    match parseVal f s with
    | some (v, r1) =>
      match List.dropWhile isJWs r1 with
      | ',' :: r3 =>
        match parseElems f (List.dropWhile isJWs r3) with
        | some (es, r5) => some (.cons v es, r5)
        | none => none
      | ']' :: r3 => some (.cons v .nil, r3)
      | _ => none
    | none => none

end

/-- `json.loads` on characters: skip surrounding whitespace, scan one
value, require the input to be exhausted. -/
def loadsL (s : List Char) : Option Json :=
  let s1 := List.dropWhile isJWs s
  match parseVal (2 * s1.length + 2) s1 with
  | some (j, rest) => if (List.dropWhile isJWs rest).isEmpty then some j else none
  | none => none

/-! ## The three `re.search` scans of `extract_fetch_data`

Each pattern is fixed-shape: literal pieces, greedy `\d+` runs followed
by a non-digit literal, greedy `\s*` followed by a non-space literal,
and greedy `[^\x7d]+` followed by `\x7d` — in every case the greedy run
cannot backtrack (a shorter run would put a forbidden character under
the next literal), so leftmost-match search is literal-directed
maximal-munch at each start position, first success wins. -/

/-- Match a literal, returning the remainder. -/
def dropLit (lit s : List Char) : Option (List Char) :=
  if lit.isPrefixOf s then some (s.drop lit.length) else none

/-- Split at the first `\x7d` (the greedy `[^\x7d]` run and what
follows it). -/
def splitNonBrace : List Char → List Char × List Char
  | [] => ([], [])
  | c :: t =>
    if c = '\x7d' then ([], c :: t)
    else
      let p := splitNonBrace t
      (c :: p.1, p.2)

/-- `re.search`: try the matcher at each start position, leftmost
success first. -/
def searchWith (m : List Char → Option (List Char)) : List Char → Option (List Char)
  | [] => m []
  | c :: t =>
    match m (c :: t) with
    | some r => some r
    | none => searchWith m t

/-- `fetch\("(https://discord\.com/api/v\d+/channels/\d+/messages)"`
anchored at the start of `s`; returns group 1. -/
def matchUrlAt (s : List Char) : Option (List Char) :=
  match dropLit "fetch(\"".data s with
  | none => none
  | some s1 =>
    match dropLit "https://discord.com/api/v".data s1 with
    | none => none
    | some s2 =>
      match spanDigits s2 with
      | ([], _) => none
      | (d1, s3) =>
        match dropLit "/channels/".data s3 with
        | none => none
        | some s4 =>
          match spanDigits s4 with
          | ([], _) => none
          | (d2, s5) =>
            match dropLit "/messages".data s5 with
            | none => none
            | some s6 =>
              match s6 with
              | '"' :: _ =>
                some ("https://discord.com/api/v".data ++ d1 ++ "/channels/".data ++ d2 ++
                  "/messages".data)
              | _ => none

/-- `"headers":\s*(\x7b[^\x7d]+\x7d)` anchored at the start of `s`;
returns group 1. -/
def matchHeadersAt (s : List Char) : Option (List Char) :=
  match dropLit "\"headers\":".data s with
  | none => none
  | some s1 =>
    match List.dropWhile isReWs s1 with
    | '\x7b' :: s3 =>
      match splitNonBrace s3 with
      | ([], _) => none
      | (mid, rest) =>
        match rest with
        | '\x7d' :: _ => some ('\x7b' :: mid ++ ['\x7d'])
        | _ => none
    | _ => none

/-- `"body":\s*"(\x7b[^\x7d]+\x7d)"` anchored at the start of `s`;
returns group 1. -/
def matchBodyAt (s : List Char) : Option (List Char) :=
  match dropLit "\"body\":".data s with
  | none => none
  | some s1 =>
    match List.dropWhile isReWs s1 with
    | '"' :: '\x7b' :: s3 =>
      match splitNonBrace s3 with
      | ([], _) => none
      | (mid, rest) =>
        match rest with
        | '\x7d' :: '"' :: _ => some ('\x7b' :: mid ++ ['\x7d'])
        | _ => none
    | _ => none

/-! ## `MessageEditor.extract_fetch_data` (src/main.py lines 40-86) -/

/-- The validated record built by `extract_fetch_data` (the dataclass
`FetchData` of the source).  `original_nonce` / `original_content` keep
whatever value the parsed body holds, as the untyped source does. -/
structure FetchData where
  url : String
  headers : JObj
  body : JObj
  original_nonce : Json
  original_content : Json
  deriving DecidableEq, Repr

/-- `extract_fetch_data` on characters: the three scans in source
order, quote normalization of the headers group, unescaping of the body
group, `json.loads` of both, and the `nonce` presence check; any
failure (the source's `return None` paths and its catch-all `except`)
yields `none`.  A group that loads successfully necessarily loads to an
object — it begins with a brace — so the object patterns below are
exhaustive over the reachable results. -/
def extract_fetch_dataL (fetch_text : List Char) : Option FetchData :=
  match searchWith matchUrlAt fetch_text with
  | none => none
  | some url =>
    match searchWith matchHeadersAt fetch_text with
    | none => none
    | some headers_grp =>
      match loadsL (pyReplace headers_grp ['\''] ['"']) with
      | some (Json.obj headers) =>
        match searchWith matchBodyAt fetch_text with
        | none => none
        | some body_grp =>
          match loadsL (pyReplace body_grp ['\\', '"'] ['"']) with
          | some (Json.obj body) =>
            if body.hasKey "nonce" then
              some ⟨String.mk url, headers, body,
                (body.lookup "nonce").getD .null,
                body.getD "content" (.str "")⟩
            else none
          | _ => none
      | _ => none

/-- `extract_fetch_data` on strings. -/
def extract_fetch_data (fetch_text : String) : Option FetchData :=
  extract_fetch_dataL fetch_text.data

/-! ## `MessageEditor.edit_message_without_mark` (src/main.py lines 88-130) -/

/-- The `request_data` dictionary for the direct `requests.post` path. -/
structure RequestData where
  url : String
  headers : JObj
  json : JObj
  deriving DecidableEq, Repr

/-- `headers.get('referer', 'https://discord.com/channels/@me')` —
note the source consults only the `referer` spelling. -/
def referrerOf (headers : JObj) : Json :=
  headers.getD "referer" (.str "https://discord.com/channels/@me")

/-- `new_body = fetch_data.body.copy()` followed by
`new_body["content"] = new_content; new_body["nonce"] = new_nonce`
(value semantics of the two assignments on the fresh copy). -/
def newBody (body : JObj) (new_content new_nonce : String) : JObj :=
  (body.set "content" (.str new_content)).set "nonce" (.str new_nonce)

/-- The fetch-snippet template up to (and excluding) the literal
`"body": "`: url, re-serialized headers, referrer line, and the
referrer-policy line. -/
def fetchPre (fd : FetchData) : List Char :=
  "fetch(\"".data ++ fd.url.data ++ "\", \x7b\n  \"headers\": ".data ++ dumpsInd2 fd.headers ++
    ",\n  \"referrer\": \"".data ++ pyStr (referrerOf fd.headers) ++
    "\",\n  \"referrerPolicy\": \"strict-origin-when-cross-origin\",\n  ".data

/-- The fetch-snippet template after the escaped body. -/
def fetchSuf : List Char :=
  "\",\n  \"method\": \"POST\",\n  \"mode\": \"cors\",\n  \"credentials\": \"include\"\n\x7d);".data

/-- `edit_message_without_mark`, given the captured record and the new
content/nonce the instance fields hold at the call: returns the browser
fetch snippet and the `request_data` payload. -/
def edit_message_without_mark (fd : FetchData) (new_content new_nonce : String) :
    String × RequestData :=
  let new_body := newBody fd.body new_content new_nonce
  let body_json := dumpsV (Json.obj new_body)
  let body_escaped := pyReplace body_json ['"'] ['\\', '"']
  let fetch_request := fetchPre fd ++ "\"body\": \"".data ++ body_escaped ++ fetchSuf
  (String.mk fetch_request, ⟨fd.url, fd.headers, new_body⟩)

/-! ## `MessageEditor.send_request_directly` (src/main.py lines 132-161) -/

/-- An HTTP response as the dispatcher observes it: status code and raw
text (`response.json()` is parsing of that text). -/
structure HttpResponse where
  status_code : Nat
  text : String
  deriving DecidableEq, Repr

/-- Outcome of `requests.post`: a response, or a raised
`requests.RequestException` (timeout, connection refused, DNS failure,
and the library's other request-level errors) with its message. -/
inductive NetOutcome where
  | ok (r : HttpResponse)
  | requestError (msg : String)
  deriving DecidableEq, Repr

/-- Result value of the dispatcher: parsed response body on success,
diagnostic string otherwise. -/
inductive SendOut where
  | json (j : Json)
  | err (diagnostic : String)
  deriving DecidableEq, Repr

/-- Leading text of the `json.JSONDecodeError` raised by
`response.json()` on a non-JSON body (the full library message also
names line and column). -/
def jsonDecodeErrText : String := "Expecting value"

/-- `send_request_directly`: one `requests.post(url, headers=…, json=…,
timeout=10)` represented by the oracle `net` applied to the payload and
the timeout constant 10; status 200 with a parseable body is the only
success; any other status yields the status/text diagnostic; a raised
request exception yields the network diagnostic.  A 200 response whose
body is not valid JSON makes `response.json()` raise the library's
decode error, which the `except requests.RequestException` arm turns
into the network diagnostic. -/
def send_request_directly (rd : RequestData) (net : RequestData → Nat → NetOutcome) :
    Bool × SendOut :=
  match net rd 10 with
  | .requestError e => (false, .err ("Ошибка сети при отправке запроса: " ++ e))
  | .ok r =>
    if r.status_code = 200 then
      match loadsL r.text.data with
      | some j => (true, .json j)
      | none => (false, .err ("Ошибка сети при отправке запроса: " ++ jsonDecodeErrText))
    else (false, .err ("Код ответа: " ++ Nat.repr r.status_code ++ ", Сообщение: " ++ r.text))

/-! ## The interactive flow around the core
(`get_fetch_request`, `get_new_content_and_nonce`, `process_user_choice`,
`handle_direct_request`, `process_message`; src/main.py lines 174-342)

The console I/O is modelled by a script of the strings the user's
actions supply and by a list of the observable prompt/report events, in
the order the source emits them. -/

/-- The observable prompts and reports of one `process_message` cycle. -/
inductive Event where
  | clipRetryPrompt
  | clipGiveUp
  | fetchParseFail
  | fetchReadOk
  | emptyIdError
  | rewriteInvoked
  | copiedToClipboard
  | retryPrompt
  | continuePrompt
  | sentRequest (success : Bool)
  deriving DecidableEq, Repr

/-- Python `str.strip()` on the whitespace that occurs here (ASCII;
the further Unicode whitespace it strips is immaterial below). -/
def pyStrip (s : String) : String :=
  String.mk (((s.data.dropWhile isReWs).reverse.dropWhile isReWs).reverse)

/-- `clipboard_content.strip().startswith("fetch(")`. -/
def startsWithFetch (s : String) : Bool :=
  "fetch(".data.isPrefixOf (pyStrip s).data

/-- Successive clipboard reads; an exhausted script reads as empty. -/
def readClip (clips : List String) (i : Nat) : String := clips.getD i ""

/-- The clipboard loop of `get_fetch_request`: the initial read plus up
to three retries, each retry preceded by the retry prompt; `none` after
the fourth failed read (the source then reports and returns `False`). -/
def clipLoop (clips : List String) : Option String × List Event :=
  let c0 := readClip clips 0
  if startsWithFetch c0 then (some c0, [])
  else
    let c1 := readClip clips 1
    if startsWithFetch c1 then (some c1, [.clipRetryPrompt])
    else
      let c2 := readClip clips 2
      if startsWithFetch c2 then (some c2, [.clipRetryPrompt, .clipRetryPrompt])
      else
        let c3 := readClip clips 3
        if startsWithFetch c3 then (some c3, [.clipRetryPrompt, .clipRetryPrompt, .clipRetryPrompt])
        else (none, [.clipRetryPrompt, .clipRetryPrompt, .clipRetryPrompt, .clipGiveUp])

/-- `get_fetch_request`: clipboard loop, then `extract_fetch_data` on
the accepted clipboard content; `none` models the `return False` paths. -/
def get_fetch_request (clips : List String) : Option FetchData × List Event :=
  match clipLoop clips with
  | (none, evs) => (none, evs)
  | (some content, evs) =>
    match extract_fetch_data content with
    | none => (none, evs ++ [.fetchParseFail])
    | some fd => (some fd, evs ++ [.fetchReadOk])

/-- `get_new_content_and_nonce`: stores the two inputs and returns
`False` (reporting the empty-identifier error) exactly when the supplied
nonce is the empty string (`if not self.new_nonce`). -/
def get_new_content_and_nonce (new_content new_nonce : String) : Bool × List Event :=
  if new_nonce = "" then (false, [.emptyIdError]) else (true, [])

/-- `str.lower()` on the alphabets the yes-answers use (ASCII and the
Cyrillic block). -/
def pyLowerChar (c : Char) : Char :=
  if 'A' ≤ c && c ≤ 'Z' then Char.ofNat (c.toNat + 32)
  else if 1040 ≤ c.toNat && c.toNat ≤ 1071 then Char.ofNat (c.toNat + 32)
  else if c.toNat = 1025 then Char.ofNat 1105
  else c

/-- `answer.lower() in ["да", "д", "yes", "y", "1"]`. -/
def isYes (s : String) : Bool :=
  let l := String.mk (s.data.map pyLowerChar)
  l = "да" || l = "д" || l = "yes" || l = "y" || l = "1"

/-- The scripted user inputs and the network of one cycle. -/
structure Script where
  clipboards : List String
  newContent : String
  newNonce : String
  sendChoice : String
  sendNextChoice : String
  sendRetryAns : String
  continueAns : String
  retryAns : String
  net : RequestData → Nat → NetOutcome

/-- `handle_direct_request`: dispatch, then either the next-message
choice (continue iff `"1"`) or the try-again prompt. -/
def handle_direct_request (sc : Script) (rd : RequestData) : Bool × List Event :=
  let res := send_request_directly rd sc.net
  if res.1 then (sc.sendNextChoice = "1", [.sentRequest true, .continuePrompt])
  else (isYes sc.sendRetryAns, [.sentRequest false, .retryPrompt])

/-- `process_user_choice` on the three menu choices (any unrecognized
choice falls to the continue prompt, as in the source). -/
def process_user_choice (sc : Script) (rd : RequestData) : Bool × List Event :=
  if sc.sendChoice = "1" then handle_direct_request sc rd
  else if sc.sendChoice = "2" then (isYes sc.continueAns, [.continuePrompt])
  else if sc.sendChoice = "3" then (false, [])
  else (isYes sc.continueAns, [.continuePrompt])

/-- One full `process_message` cycle: capture, new content/nonce,
rewrite, clipboard write, and the chosen dispatch path; the returned
`Bool` is the continue-running flag handed back to `main`. -/
def process_message (sc : Script) : Bool × List Event :=
  match get_fetch_request sc.clipboards with
  | (none, evs) => (isYes sc.retryAns, evs ++ [.retryPrompt])
  | (some fd, evs) =>
    match get_new_content_and_nonce sc.newContent sc.newNonce with
    | (false, evs2) => (isYes sc.retryAns, evs ++ evs2 ++ [.retryPrompt])
    | (true, evs2) =>
      let er := edit_message_without_mark fd sc.newContent sc.newNonce
      let pc := process_user_choice sc er.2
      (pc.1, evs ++ evs2 ++ [.rewriteInvoked, .copiedToClipboard] ++ pc.2)

/-! ## Python object semantics of `fetch_data.body.copy()`
(src/main.py lines 100-103)

A small heap model: dicts and lists are heap objects reached through
references; `dict.copy` allocates a new dict holding the same value
cells — in particular the same references to nested objects. -/

/-- A Python value cell: an immutable scalar, or a reference to a heap
object. -/
inductive PVal where
  | pstr (s : String)
  | pnum (lex : String)
  | pbool (b : Bool)
  | pnull
  | pref (a : Nat)
  deriving DecidableEq, Repr

/-- A mutable heap object: a dict or a list. -/
inductive HObj where
  | hdict (fields : List (String × PVal))
  | hlist (elems : List PVal)
  deriving DecidableEq, Repr

/-- The heap: objects addressed by position. -/
abbrev Heap := List HObj

/-- Read the object at an address. -/
def heapGet : Heap → Nat → Option HObj
  | [], _ => none
  | o :: _, 0 => some o
  | _ :: t, n+1 => heapGet t n

/-- Replace the object at an address. -/
def heapSet : Heap → Nat → HObj → Heap
  | [], _, _ => []
  | _ :: t, 0, o => o :: t
  | x :: t, n+1, o => x :: heapSet t n o

/-- `d[k] = v` on a field list (update in place or append), the cell
-level analogue of `JObj.set`. -/
def assocSet : List (String × PVal) → String → PVal → List (String × PVal)
  | [], k, v => [(k, v)]
  | (k', v') :: t, k, v =>
    if k' = k then (k', v) :: t else (k', v') :: assocSet t k v

/-- `d.copy()` on the dict at `a`: allocate a fresh dict with the same
cells (a shallow copy). -/
def dictCopy (h : Heap) (a : Nat) : Option (Heap × Nat) :=
  match heapGet h a with
  | some (.hdict fs) => some (h ++ [.hdict fs], h.length)
  | _ => none

/-- `d[k] = v` on the dict at `a`. -/
def dictAssign (h : Heap) (a : Nat) (k : String) (v : PVal) : Heap :=
  match heapGet h a with
  | some (.hdict fs) => heapSet h a (.hdict (assocSet fs k v))
  | _ => h

/-- `l.append(v)` on the list at `a` — a representative mutation of a
nested mutable value reached through the clone. -/
def listAppend (h : Heap) (a : Nat) (v : PVal) : Heap :=
  match heapGet h a with
  | some (.hlist es) => heapSet h a (.hlist (es ++ [v]))
  | _ => h

/-- Lines 101-103 of the source on the heap: `new_body =
fetch_data.body.copy()`, then the `content` and `nonce` assignments on
the clone. -/
def editCopySteps (h : Heap) (bodyAddr : Nat) (c n : String) : Option (Heap × Nat) :=
  match dictCopy h bodyAddr with
  | none => none
  | some (h1, clone) =>
    some (dictAssign (dictAssign h1 clone "content" (.pstr c)) clone "nonce" (.pstr n), clone)

mutual

/-- Fuel-indexed full dereference of a value cell to the pure tree it
denotes (the observable value of a Python object). -/
def derefV : Nat → Heap → PVal → Option Json
  | 0, _, _ => none
  | _+1, _, .pstr s => some (.str s)
  | _+1, _, .pnum l => some (.num l)
  | _+1, _, .pbool b => some (.bool b)
  | _+1, _, .pnull => some .null
  | f+1, h, .pref a =>
    match heapGet h a with
    | some (.hdict fs) =>
      match derefFs f h fs with
      | some o => some (.obj o)
      | none => none
    | some (.hlist es) =>
      match derefEs f h es with
      | some ar => some (.arr ar)
      | none => none
    | none => none

/-- Dereference of dict fields. -/
def derefFs : Nat → Heap → List (String × PVal) → Option JObj
  | 0, _, _ => none
  | _+1, _, [] => some .nil
  | f+1, h, (k, v) :: t =>
    match derefV f h v, derefFs f h t with
    | some jv, some jt => some (.cons k jv jt)
    | _, _ => none

/-- Dereference of list elements. -/
def derefEs : Nat → Heap → List PVal → Option JArr
  | 0, _, _ => none
  | _+1, _, [] => some .nil
  | f+1, h, v :: t =>
    match derefV f h v, derefEs f h t with
    | some jv, some jt => some (.cons jv jt)
    | _, _ => none

end

/-- All references of a value cell point below `n`. -/
def pvalRefsBelow (n : Nat) : PVal → Bool
  | .pref a => a < n
  | _ => true

/-- All references of a heap object point below `n`. -/
def hobjRefsBelow (n : Nat) : HObj → Bool
  | .hdict fs => fs.all (fun p => pvalRefsBelow n p.2)
  | .hlist es => es.all (pvalRefsBelow n)

/-- A heap with no dangling references. -/
def heapClosed (h : Heap) : Bool := h.all (hobjRefsBelow h.length)

/-! ## Concrete scenarios -/

/-- Scenario A capture text (spec §8):
`fetch("https://discord.com/api/v9/channels/123/messages", \x7b"headers":
\x7b"authorization": "X"\x7d, "body":
"\x7b\"content\":\"hi\",\"nonce\":\"111\"\x7d"\x7d)`. -/
def scnA : String :=
  "fetch(\"https://discord.com/api/v9/channels/123/messages\", \x7b\"headers\": \x7b\"authorization\": \"X\"\x7d, \"body\": \"\x7b\\\"content\\\":\\\"hi\\\",\\\"nonce\\\":\\\"111\\\"\x7d\"\x7d)"

/-- The record `extract_fetch_data` builds from Scenario A. -/
def fdA : FetchData :=
  ⟨"https://discord.com/api/v9/channels/123/messages",
   .cons "authorization" (.str "X") .nil,
   .cons "content" (.str "hi") (.cons "nonce" (.str "111") .nil),
   .str "111", .str "hi"⟩

theorem extract_scnA : extract_fetch_data scnA = some fdA := by decide

/-! ## C1 — the structured form of the rewrite -/

/-- C1: for every captured record and every `newContent`/`newId`, the
structured form returned by `edit_message_without_mark` keeps the
captured endpoint and headers, and its body is the captured body with
`content` set to `newContent`, `nonce` set to `newId`, and every other
field preserved. -/
theorem rewrite_structured_form_spec (fd : FetchData) (newContent newId : String) :
    (edit_message_without_mark fd newContent newId).2.url = fd.url ∧
    (edit_message_without_mark fd newContent newId).2.headers = fd.headers ∧
    (edit_message_without_mark fd newContent newId).2.json.lookup "content" =
      some (.str newContent) ∧
    (edit_message_without_mark fd newContent newId).2.json.lookup "nonce" =
      some (.str newId) ∧
    (∀ k, k ≠ "content" → k ≠ "nonce" →
      (edit_message_without_mark fd newContent newId).2.json.lookup k = fd.body.lookup k) := by
  refine ⟨rfl, rfl, ?_, ?_, ?_⟩
  · show ((fd.body.set "content" (.str newContent)).set "nonce" (.str newId)).lookup "content" = _
    rw [JObj.lookup_set_ne _ _ _ _ (by decide), JObj.lookup_set_self]
  · exact JObj.lookup_set_self _ _ _
  · intro k hkc hkn
    show ((fd.body.set "content" (.str newContent)).set "nonce" (.str newId)).lookup k = _
    rw [JObj.lookup_set_ne _ _ _ _ (fun h => hkn h.symm),
      JObj.lookup_set_ne _ _ _ _ (fun h => hkc h.symm)]

/-- C1 witness: Scenario B — on the Scenario-A record with
`newContent="bye"`, `newId="999"` the endpoint is unchanged and the body
is exactly `\x7b"content":"bye","nonce":"999"\x7d`. -/
theorem rewrite_structured_form_spec_witness :
    ((edit_message_without_mark fdA "bye" "999").2.url = fdA.url ∧
     (edit_message_without_mark fdA "bye" "999").2.json.lookup "content" =
       some (.str "bye") ∧
     (edit_message_without_mark fdA "bye" "999").2.json.lookup "nonce" =
       some (.str "999") ∧
     (edit_message_without_mark fdA "bye" "999").2.json.lookup "authorization" =
       fdA.body.lookup "authorization") ∧
    (edit_message_without_mark fdA "bye" "999").2.json =
      JObj.cons "content" (.str "bye") (.cons "nonce" (.str "999") .nil) :=
  ⟨⟨(rewrite_structured_form_spec fdA "bye" "999").1,
    (rewrite_structured_form_spec fdA "bye" "999").2.2.1,
    (rewrite_structured_form_spec fdA "bye" "999").2.2.2.1,
    (rewrite_structured_form_spec fdA "bye" "999").2.2.2.2 "authorization"
      (by decide) (by decide)⟩,
   by decide⟩

/-! ## Dissection of a successful extraction -/

/-- A successful `extract_fetch_data` pins down every stage: the url
scan, the headers scan and load, the body scan and load, the `nonce`
check, and the exact record built from them. -/
theorem extract_some_elim (t : List Char) (fd : FetchData)
    (h : extract_fetch_dataL t = some fd) :
    ∃ url hg bg headers body,
      searchWith matchUrlAt t = some url ∧
      searchWith matchHeadersAt t = some hg ∧
      loadsL (pyReplace hg ['\''] ['"']) = some (.obj headers) ∧
      searchWith matchBodyAt t = some bg ∧
      loadsL (pyReplace bg ['\\', '"'] ['"']) = some (.obj body) ∧
      body.hasKey "nonce" = true ∧
      fd = ⟨String.mk url, headers, body, (body.lookup "nonce").getD .null,
        body.getD "content" (.str "")⟩ := by
  unfold extract_fetch_dataL at h
  split at h
  · exact absurd h (by simp)
  next url hurl =>
    split at h
    · exact absurd h (by simp)
    next hg hhg =>
      split at h
      next headers hload =>
        split at h
        · exact absurd h (by simp)
        next bg hbg =>
          split at h
          next body hbload =>
            split at h
            next hnz =>
              exact ⟨url, hg, bg, headers, body, hurl, hhg, hload, hbg, hbload, hnz,
                (Option.some_injective _ h).symm⟩
            next hnz => exact absurd h (by simp)
          next hne => exact absurd h (by simp)
      next hne => exact absurd h (by simp)

/-! ## C2 — the convenience views of a successful extraction -/

/-- C2: whenever `extract_fetch_data` returns a record, its
`original_nonce` is exactly the parsed body's `nonce` value and its
`original_content` is the parsed body's `content` value, defaulting to
the empty string when `content` is absent. -/
theorem extract_views_spec (s : String) (fd : FetchData)
    (h : extract_fetch_data s = some fd) :
    fd.body.lookup "nonce" = some fd.original_nonce ∧
    fd.original_content = (fd.body.lookup "content").getD (.str "") := by
  obtain ⟨url, hg, bg, headers, body, _, _, _, _, _, hnz, rfl⟩ :=
    extract_some_elim s.data fd h
  refine ⟨?_, rfl⟩
  unfold JObj.hasKey at hnz
  cases hb : body.lookup "nonce" with
  | none => rw [hb] at hnz; exact absurd hnz (by simp)
  | some v => simp [hb]

/-- C2 witness: Scenario A — extraction succeeds with
`originalContent="hi"`, `originalNonce="111"`, and the views agree with
the parsed body. -/
theorem extract_views_spec_witness :
    (fdA.body.lookup "nonce" = some fdA.original_nonce ∧
     fdA.original_content = (fdA.body.lookup "content").getD (.str "")) ∧
    extract_fetch_data scnA = some fdA ∧
    fdA.original_content = .str "hi" ∧ fdA.original_nonce = .str "111" :=
  ⟨extract_views_spec scnA fdA (by decide), by decide, by decide, by decide⟩

/-! ## C3 — a record exists only if every stage succeeded -/

/-- C3: `extract_fetch_data` is a total function into `Option` (the
source catches every exception and returns `None`; modelled by the
`Option` codomain — no failure escapes), and it returns a record only
if the endpoint scan matched, the headers block scanned and loaded as a
mapping, the body block scanned and loaded as a mapping, and the body
holds a `nonce` key — and then the record is fully populated from those
stages, never partially. -/
theorem extract_only_if_spec (s : String) (fd : FetchData)
    (h : extract_fetch_data s = some fd) :
    (∃ url, searchWith matchUrlAt s.data = some url ∧ fd.url = String.mk url) ∧
    (∃ hg, searchWith matchHeadersAt s.data = some hg ∧
      loadsL (pyReplace hg ['\''] ['"']) = some (.obj fd.headers)) ∧
    (∃ bg, searchWith matchBodyAt s.data = some bg ∧
      loadsL (pyReplace bg ['\\', '"'] ['"']) = some (.obj fd.body)) ∧
    fd.body.hasKey "nonce" = true ∧
    fd.original_nonce = (fd.body.lookup "nonce").getD .null ∧
    fd.original_content = fd.body.getD "content" (.str "") := by
  obtain ⟨url, hg, bg, headers, body, h1, h2, h3, h4, h5, h6, rfl⟩ :=
    extract_some_elim s.data fd h
  exact ⟨⟨url, h1, rfl⟩, ⟨hg, h2, h3⟩, ⟨bg, h4, h5⟩, h6, rfl, rfl⟩

/-- C3 witness: the stages of the Scenario-A extraction. -/
theorem extract_only_if_spec_witness :
    ((∃ url, searchWith matchUrlAt scnA.data = some url ∧ fdA.url = String.mk url) ∧
     (∃ hg, searchWith matchHeadersAt scnA.data = some hg ∧
       loadsL (pyReplace hg ['\''] ['"']) = some (.obj fdA.headers)) ∧
     (∃ bg, searchWith matchBodyAt scnA.data = some bg ∧
       loadsL (pyReplace bg ['\\', '"'] ['"']) = some (.obj fdA.body)) ∧
     fdA.body.hasKey "nonce" = true ∧
     fdA.original_nonce = (fdA.body.lookup "nonce").getD .null ∧
     fdA.original_content = fdA.body.getD "content" (.str "")) ∧
    extract_fetch_data "no capture here" = none ∧
    extract_fetch_data "fetch(\"https://discord.com/api/v9/channels/123/messages\", \x7b\"headers\": \x7b\"authorization\": \"X\"\x7d, \"body\": \"\x7b\\\"content\\\":\\\"hi\\\"\x7d\"\x7d)" = none :=
  ⟨extract_only_if_spec scnA fdA (by decide), by decide, by decide⟩

/-! ## C4 — dispatch outcome mapping -/

/-- C4 (amended): one POST is issued with the timeout constant 10;
the dispatcher succeeds, returning the parsed response body, exactly
when the status code is 200 and the response body parses as structured
data; any other status code yields a failure carrying that status code
and the raw response text; a raised request exception yields a failure
carrying its message.  It never raises: it is a total function into the
result pair. -/
theorem send_outcome_spec (rd : RequestData) (net : RequestData → Nat → NetOutcome) :
    ((send_request_directly rd net).1 = true ↔
      (∃ r, net rd 10 = .ok r ∧ r.status_code = 200 ∧ ∃ j, loadsL r.text.data = some j)) ∧
    (∀ r j, net rd 10 = .ok r → r.status_code = 200 → loadsL r.text.data = some j →
      send_request_directly rd net = (true, .json j)) ∧
    (∀ r, net rd 10 = .ok r → r.status_code ≠ 200 →
      send_request_directly rd net =
        (false, .err ("Код ответа: " ++ Nat.repr r.status_code ++ ", Сообщение: " ++ r.text))) ∧
    (∀ e, net rd 10 = .requestError e →
      send_request_directly rd net =
        (false, .err ("Ошибка сети при отправке запроса: " ++ e))) := by
  refine ⟨?_, ?_, ?_, ?_⟩
  · constructor
    · intro h
      unfold send_request_directly at h
      split at h
      next e heq => exact absurd h (by simp)
      next r heq =>
        split at h
        next h200 =>
          cases hl : loadsL r.text.data with
          | none => rw [hl] at h; exact absurd h (by simp)
          | some j => exact ⟨r, heq, h200, j, hl⟩
        next h200 => exact absurd h (by simp)
    · rintro ⟨r, heq, h200, j, hl⟩
      unfold send_request_directly
      rw [heq]
      simp [h200, hl]
  · intro r j heq h200 hl
    unfold send_request_directly
    rw [heq]
    simp [h200, hl]
  · intro r heq h200
    unfold send_request_directly
    rw [heq]
    simp [h200]
  · intro e heq
    unfold send_request_directly
    rw [heq]

/-- A dispatch payload used by the concrete dispatcher scenarios. -/
def rdX : RequestData :=
  ⟨"https://discord.com/api/v9/channels/123/messages",
   .cons "authorization" (.str "X") .nil,
   .cons "content" (.str "bye") (.cons "nonce" (.str "999") .nil)⟩

/-- A network returning status 200 with a body that is not valid
structured data. -/
def net200bad : RequestData → Nat → NetOutcome := fun _ _ => .ok ⟨200, "not json"⟩

/-- A network returning a simulated 403 with text `Forbidden`. -/
def net403 : RequestData → Nat → NetOutcome := fun _ _ => .ok ⟨403, "Forbidden"⟩

/-- C4 counterexample: the claim's "Success if and only if the HTTP
status code is 200" fails — on a 200 response whose body is not valid
structured data (`response.json()` raises), the dispatcher returns
Failure although the status code is 200. -/
theorem send_200_not_sufficient :
    net200bad rdX 10 = .ok ⟨200, "not json"⟩ ∧
    (send_request_directly rdX net200bad).1 = false := by
  exact ⟨rfl, by decide⟩

/-- C4 witness: Scenario D — a simulated 403 yields Failure carrying
the status code 403 and the response text. -/
theorem send_outcome_spec_witness :
    send_request_directly rdX net403 =
      (false, .err ("Код ответа: " ++ Nat.repr 403 ++ ", Сообщение: " ++ "Forbidden")) ∧
    ("Код ответа: " ++ Nat.repr 403 ++ ", Сообщение: " ++ "Forbidden" : String) =
      "Код ответа: 403, Сообщение: Forbidden" :=
  ⟨(send_outcome_spec rdX net403).2.2.1 ⟨403, "Forbidden"⟩ rfl (by decide), by decide⟩

/-! ## C5 — aliasing behaviour of the body copy -/

theorem heapGet_lt_length : ∀ (h : Heap) (a : Nat) (o : HObj),
    heapGet h a = some o → a < h.length
  | [], _, _, hg => by simp [heapGet] at hg
  | _ :: _, 0, _, _ => by simp
  | _ :: t, a+1, o, hg => Nat.succ_lt_succ (heapGet_lt_length t a o hg)

theorem heapGet_append_lt : ∀ (h ext : Heap) (a : Nat), a < h.length →
    heapGet (h ++ ext) a = heapGet h a
  | [], _, _, ha => by simp at ha
  | _ :: _, _, 0, _ => rfl
  | _ :: t, ext, a+1, ha => heapGet_append_lt t ext a (Nat.lt_of_succ_lt_succ ha)

theorem heapGet_append_self : ∀ (h : Heap) (x : HObj), heapGet (h ++ [x]) h.length = some x
  | [], _ => rfl
  | _ :: t, x => heapGet_append_self t x

theorem heapGet_mem : ∀ (h : Heap) (a : Nat) (o : HObj), heapGet h a = some o → o ∈ h
  | [], _, _, hg => by simp [heapGet] at hg
  | x :: _, 0, o, hg => by
    simp [heapGet] at hg
    exact hg ▸ List.mem_cons_self x _
  | _ :: t, a+1, o, hg => List.mem_cons_of_mem _ (heapGet_mem t a o hg)

theorem heapSet_append : ∀ (h : Heap) (x y : HObj), heapSet (h ++ [x]) h.length y = h ++ [y]
  | [], _, _ => rfl
  | z :: t, x, y => by
    show z :: heapSet (t ++ [x]) t.length y = z :: (t ++ [y])
    rw [heapSet_append t x y]

mutual

theorem derefV_append : ∀ (f : Nat) (v : PVal) (h ext : Heap),
    heapClosed h = true → pvalRefsBelow h.length v = true →
    derefV f (h ++ ext) v = derefV f h v
  | 0, _, _, _, _, _ => rfl
  | _+1, .pstr _, _, _, _, _ => rfl
  | _+1, .pnum _, _, _, _, _ => rfl
  | _+1, .pbool _, _, _, _, _ => rfl
  | _+1, .pnull, _, _, _, _ => rfl
  | f+1, .pref a, h, ext, hc, hv => by
    have ha : a < h.length := by simpa [pvalRefsBelow] using hv
    show (match heapGet (h ++ ext) a with
      | some (.hdict fs) => _ | some (.hlist es) => _ | none => none) = _
    rw [heapGet_append_lt h ext a ha]
    cases hg : heapGet h a with
    | none => simp [derefV, hg]
    | some o =>
      have hbelow : hobjRefsBelow h.length o = true := by
        have := heapGet_mem h a o hg
        have hall := (List.all_eq_true.mp hc) o this
        exact hall
      cases o with
      | hdict fs =>
        have hfs : fs.all (fun p => pvalRefsBelow h.length p.2) = true := hbelow
        simp only [derefV, hg, derefFs_append f fs h ext hc hfs]
      | hlist es =>
        have hes : es.all (pvalRefsBelow h.length) = true := hbelow
        simp only [derefV, hg, derefEs_append f es h ext hc hes]

theorem derefFs_append : ∀ (f : Nat) (fs : List (String × PVal)) (h ext : Heap),
    heapClosed h = true → fs.all (fun p => pvalRefsBelow h.length p.2) = true →
    derefFs f (h ++ ext) fs = derefFs f h fs
  | 0, _, _, _, _, _ => rfl
  | _+1, [], _, _, _, _ => rfl
  | f+1, (k, v) :: t, h, ext, hc, hall => by
    have hv : pvalRefsBelow h.length v = true := by
      have := (List.all_eq_true.mp hall) (k, v) (List.mem_cons_self _ _)
      exact this
    have ht : t.all (fun p => pvalRefsBelow h.length p.2) = true := by
      rw [List.all_eq_true]
      intro p hp
      exact (List.all_eq_true.mp hall) p (List.mem_cons_of_mem _ hp)
    simp only [derefFs, derefV_append f v h ext hc hv, derefFs_append f t h ext hc ht]

theorem derefEs_append : ∀ (f : Nat) (es : List PVal) (h ext : Heap),
    heapClosed h = true → es.all (pvalRefsBelow h.length) = true →
    derefEs f (h ++ ext) es = derefEs f h es
  | 0, _, _, _, _, _ => rfl
  | _+1, [], _, _, _, _ => rfl
  | f+1, v :: t, h, ext, hc, hall => by
    have hv : pvalRefsBelow h.length v = true := by
      have := (List.all_eq_true.mp hall) v (List.mem_cons_self _ _)
      exact this
    have ht : t.all (pvalRefsBelow h.length) = true := by
      rw [List.all_eq_true]
      intro p hp
      exact (List.all_eq_true.mp hall) p (List.mem_cons_of_mem _ hp)
    simp only [derefEs, derefV_append f v h ext hc hv, derefEs_append f t h ext hc ht]

end

/-- The shape of `editCopySteps` on a dict body: the heap is extended
by exactly one object — the clone, at the fresh address — holding the
updated field list; no existing object is touched. -/
theorem editCopySteps_shape (h : Heap) (a : Nat) (c n : String)
    (fs : List (String × PVal)) (hg : heapGet h a = some (.hdict fs)) :
    editCopySteps h a c n =
      some (h ++ [.hdict (assocSet (assocSet fs "content" (.pstr c)) "nonce" (.pstr n))],
        h.length) := by
  have h2 : dictAssign (h ++ [HObj.hdict fs]) h.length "content" (.pstr c) =
      h ++ [HObj.hdict (assocSet fs "content" (.pstr c))] := by
    unfold dictAssign
    rw [heapGet_append_self h (HObj.hdict fs)]
    exact heapSet_append h _ _
  have h3 : dictAssign (h ++ [HObj.hdict (assocSet fs "content" (.pstr c))]) h.length
      "nonce" (.pstr n) =
      h ++ [HObj.hdict (assocSet (assocSet fs "content" (.pstr c)) "nonce" (.pstr n))] := by
    unfold dictAssign
    rw [heapGet_append_self h (HObj.hdict (assocSet fs "content" (.pstr c)))]
    exact heapSet_append h _ _
  unfold editCopySteps dictCopy
  rw [hg]
  show some (dictAssign (dictAssign (h ++ [HObj.hdict fs]) h.length "content" (.pstr c))
    h.length "nonce" (.pstr n), h.length) = _
  rw [h2, h3]

/-- C5 (amended): the copy of lines 101-103 is shallow.  The
operation's own mutations — the top-level `content`/`nonce` assignments
performed on the fresh clone — never change the observable value of the
original `captured.body`: on a closed heap, the dereferenced original
is bit-for-bit the same after the call, at every fuel. -/
theorem copy_top_level_updates_safe (h : Heap) (a : Nat) (c n : String)
    (h' : Heap) (clone : Nat) (hc : heapClosed h = true)
    (he : editCopySteps h a c n = some (h', clone)) :
    ∀ f, derefV f h' (.pref a) = derefV f h (.pref a) := by
  intro f
  have hex : ∃ fs, heapGet h a = some (.hdict fs) := by
    unfold editCopySteps dictCopy at he
    cases hg : heapGet h a with
    | none => rw [hg] at he; exact absurd he (by simp)
    | some o =>
      cases o with
      | hdict fs => exact ⟨fs, rfl⟩
      | hlist es => rw [hg] at he; exact absurd he (by simp)
  obtain ⟨fs, hg⟩ := hex
  rw [editCopySteps_shape h a c n fs hg] at he
  have hh : h' = h ++ [.hdict (assocSet (assocSet fs "content" (.pstr c)) "nonce" (.pstr n))] := by
    injection he with he1
    injection he1 with he2 he3
    exact he2.symm
  subst hh
  exact derefV_append f (.pref a) h _ hc
    (by simp [pvalRefsBelow, heapGet_lt_length h a _ hg])

/-- The captured body of the aliasing scenario: a dict holding a nonce
and a nested mutable list (address 1), itself at address 0. -/
def heapCx : Heap := [.hdict [("nonce", .pstr "111"), ("embeds", .pref 1)], .hlist []]

/-- The heap after `editCopySteps heapCx 0 "bye" "999"`: the clone at
address 2 shares the nested list at address 1 with the original. -/
def heapCx3 : Heap :=
  [.hdict [("nonce", .pstr "111"), ("embeds", .pref 1)],
   .hlist [],
   .hdict [("nonce", .pstr "999"), ("embeds", .pref 1), ("content", .pstr "bye")]]

/-- C5 counterexample: the claim's deep-copy reading — "after any
mutation of the clone, the original `captured.body` is unchanged,
including any nested values" — fails.  The copy is shallow: the clone's
`embeds` field still references the original's list object, so mutating
that nested value through the clone (an append) changes the observable
value of the original body. -/
theorem copy_not_deep_counterexample :
    editCopySteps heapCx 0 "bye" "999" = some (heapCx3, 2) ∧
    heapGet heapCx3 2 =
      some (.hdict [("nonce", .pstr "999"), ("embeds", .pref 1), ("content", .pstr "bye")]) ∧
    derefV 10 (listAppend heapCx3 1 (.pstr "x")) (.pref 0) ≠ derefV 10 heapCx (.pref 0) := by
  refine ⟨by decide, by decide, by decide⟩

/-- C5 witness: on the same scenario heap the operation's own top-level
updates leave the original body's observable value unchanged. -/
theorem copy_top_level_updates_safe_witness :
    derefV 10 heapCx3 (.pref 0) = derefV 10 heapCx (.pref 0) :=
  copy_top_level_updates_safe heapCx 0 "bye" "999" heapCx3 2 (by decide) (by decide) 10

/-! ## C7 — the referrer embedded in the textual form -/

/-- C7 (amended): the textual form embeds, on its `"referrer"` line,
exactly the value `headers.get('referer', …)` — the captured headers'
`referer` entry when that spelling is present, and the documented
default `https://discord.com/channels/@me` otherwise; a header present
only under the `referrer` spelling is not consulted. -/
theorem rewrite_referrer_spec (fd : FetchData) (c n : String) :
    (∃ pre post, (edit_message_without_mark fd c n).1.data =
      pre ++ ("\"referrer\": \"".data ++ pyStr (referrerOf fd.headers) ++ ['"']) ++ post) ∧
    (∀ v, fd.headers.lookup "referer" = some v → referrerOf fd.headers = v) ∧
    (fd.headers.lookup "referer" = none →
      referrerOf fd.headers = .str "https://discord.com/channels/@me") := by
  refine ⟨?_, ?_, ?_⟩
  · refine ⟨"fetch(\"".data ++ fd.url.data ++ "\", \x7b\n  \"headers\": ".data ++
      dumpsInd2 fd.headers ++ ",\n  ".data,
      ",\n  \"referrerPolicy\": \"strict-origin-when-cross-origin\",\n  ".data ++
      "\"body\": \"".data ++
      pyReplace (dumpsV (Json.obj (newBody fd.body c n))) ['"'] ['\\', '"'] ++ fetchSuf, ?_⟩
    show fetchPre fd ++ "\"body\": \"".data ++ _ ++ fetchSuf = _
    unfold fetchPre
    simp only [List.append_assoc, List.cons_append, List.nil_append]
  · intro v hv
    unfold referrerOf JObj.getD
    rw [hv]
    rfl
  · intro hv
    unfold referrerOf JObj.getD
    rw [hv]
    rfl

/-- A captured record whose headers carry the `referrer` spelling (and
no `referer` entry). -/
def fdRef : FetchData :=
  ⟨"https://discord.com/api/v9/channels/123/messages",
   .cons "referrer" (.str "https://discord.com/channels/55") .nil,
   .cons "nonce" (.str "1") .nil,
   .str "1", .str ""⟩

/-- C7 counterexample: the claim promises the captured `referer`/`referrer`
entry is reused "when such an entry is present"; with the entry present
under the `referrer` spelling the rewrite still embeds the default —
`headers.get('referer', …)` never consults the `referrer` key. -/
theorem rewrite_referrer_counterexample :
    fdRef.headers.lookup "referrer" = some (.str "https://discord.com/channels/55") ∧
    referrerOf fdRef.headers = .str "https://discord.com/channels/@me" ∧
    referrerOf fdRef.headers ≠ .str "https://discord.com/channels/55" := by
  refine ⟨by decide, by decide, by decide⟩

/-- C7 witness: with a `referer` entry present its value is the one
embedded, and with no `referer` entry the default is. -/
theorem rewrite_referrer_spec_witness :
    referrerOf (JObj.cons "referer" (.str "https://discord.com/channels/77") .nil) =
      .str "https://discord.com/channels/77" ∧
    referrerOf fdA.headers = .str "https://discord.com/channels/@me" :=
  ⟨(rewrite_referrer_spec
      ⟨"u", JObj.cons "referer" (.str "https://discord.com/channels/77") .nil, .nil,
        .null, .null⟩ "c" "n").2.1 _ (by decide),
   (rewrite_referrer_spec fdA "c" "n").2.2 (by decide)⟩

/-! ## C8 — the empty-identifier abort -/

theorem clipLoop_no_rewrite (clips : List String) :
    Event.rewriteInvoked ∉ (clipLoop clips).2 := by
  unfold clipLoop
  dsimp only
  split_ifs <;> simp

theorem get_fetch_request_no_rewrite (clips : List String) :
    Event.rewriteInvoked ∉ (get_fetch_request clips).2 := by
  unfold get_fetch_request
  split
  next evs heq =>
    have := clipLoop_no_rewrite clips
    rw [heq] at this
    exact this
  next content evs heq =>
    have hevs : Event.rewriteInvoked ∉ evs := by
      have := clipLoop_no_rewrite clips
      rw [heq] at this
      exact this
    cases hx : extract_fetch_data content with
    | none =>
      simp only [hx, List.mem_append]
      rintro (h | h)
      · exact hevs h
      · exact absurd h (by decide)
    | some fd =>
      simp only [hx, List.mem_append]
      rintro (h | h)
      · exact hevs h
      · exact absurd h (by decide)

/-- C8: whenever the user supplies an empty identifier, the enclosing
flow aborts before the rewrite is invoked — `process_message` reports
the empty-identifier error, puts up the retry prompt, and returns the
retry answer; the rewrite event never occurs on an empty identifier,
so the rewrite is only reached with a non-empty one. -/
theorem empty_identifier_aborts (sc : Script) :
    (∀ fd evs, get_fetch_request sc.clipboards = (some fd, evs) → sc.newNonce = "" →
      process_message sc = (isYes sc.retryAns, evs ++ [.emptyIdError, .retryPrompt])) ∧
    (sc.newNonce = "" → Event.rewriteInvoked ∉ (process_message sc).2) ∧
    (Event.rewriteInvoked ∈ (process_message sc).2 → sc.newNonce ≠ "") := by
  have key : ∀ fd evs, get_fetch_request sc.clipboards = (some fd, evs) → sc.newNonce = "" →
      process_message sc = (isYes sc.retryAns, evs ++ [.emptyIdError, .retryPrompt]) := by
    intro fd evs hg hn
    unfold process_message
    rw [hg]
    unfold get_new_content_and_nonce
    rw [if_pos hn]
    simp
  have notin : sc.newNonce = "" → Event.rewriteInvoked ∉ (process_message sc).2 := by
    intro hn
    rcases hg : get_fetch_request sc.clipboards with ⟨ofd, evs⟩
    have hevs : Event.rewriteInvoked ∉ evs := by
      have := get_fetch_request_no_rewrite sc.clipboards
      rw [hg] at this
      exact this
    cases ofd with
    | none =>
      unfold process_message
      rw [hg]
      simp only [List.mem_append]
      rintro (h | h)
      · exact hevs h
      · exact absurd h (by decide)
    | some fd =>
      rw [key fd evs hg hn]
      simp only [List.mem_append]
      rintro (h | h)
      · exact hevs h
      · exact absurd h (by decide)
  exact ⟨key, notin, fun hm hn => notin hn hm⟩

/-- The C8 scenario script: Scenario-A capture, then an empty
identifier, then "нет" at the retry prompt. -/
def scEmptyId : Script :=
  ⟨[scnA], "bye", "", "1", "1", "", "", "нет", fun _ _ => .requestError "timeout"⟩

/-- C8 witness: on the scenario script the flow reports the
empty-identifier error, shows the retry prompt, returns the retry
answer, and never reaches the rewrite. -/
theorem empty_identifier_aborts_witness :
    process_message scEmptyId =
      (isYes "нет", [.fetchReadOk, .emptyIdError, .retryPrompt]) ∧
    Event.rewriteInvoked ∉ (process_message scEmptyId).2 ∧
    isYes "нет" = false :=
  ⟨(empty_identifier_aborts scEmptyId).1 fdA [.fetchReadOk] (by decide) rfl,
   (empty_identifier_aborts scEmptyId).2.1 rfl,
   by decide⟩

/-! ## C9 — single-quoted and double-quoted header blocks -/

/-- A headers block as a capture tool renders it with quote character
`q`: `\x7b` qkq `: ` qvq `, ` … `\x7d`. -/
def renderPairs (q : Char) : List (String × String) → List Char
  | [] => []
  | [(k, v)] => q :: k.data ++ q :: ':' :: ' ' :: q :: v.data ++ [q]
  | (k, v) :: t => q :: k.data ++ q :: ':' :: ' ' :: q :: v.data ++ q :: ',' :: ' ' :: renderPairs q t

/-- The quoted headers block. -/
def renderHs (q : Char) (hs : List (String × String)) : List Char :=
  '\x7b' :: renderPairs q hs ++ ['\x7d']

/-- No key or value contains an apostrophe (the condition under which a
single-quoted block is the double-quoted block with the quotes swapped). -/
def noApos (hs : List (String × String)) : Bool :=
  hs.all (fun p => p.1.data.all (fun c => c != '\'') && p.2.data.all (fun c => c != '\''))

/-- One-character `str.replace` is a character map. -/
theorem replF_single (a b : Char) : ∀ (s : List Char) (f : Nat), s.length ≤ f →
    replF [a] [b] f s = s.map (fun c => if c = a then b else c)
  | [], f, _ => by cases f <;> rfl
  | c :: rest, 0, hf => by simp at hf
  | c :: rest, f+1, hf => by
    have hr : rest.length ≤ f := by simp at hf; omega
    show (if [a].isPrefixOf (c :: rest) then
        [b] ++ replF [a] [b] f (List.drop ([a].length - 1) rest)
      else c :: replF [a] [b] f rest) = _
    by_cases hc : c = a
    · simp [List.isPrefixOf, hc, replF_single a b rest f hr]
    · have : ([a].isPrefixOf (c :: rest)) = false := by
        simp [List.isPrefixOf]
        exact fun he => absurd he.symm hc
      simp [this, hc, replF_single a b rest f hr]

theorem pyReplace_single (a b : Char) (s : List Char) :
    pyReplace s [a] [b] = s.map (fun c => if c = a then b else c) :=
  replF_single a b s s.length (Nat.le_refl _)

/-- Mapping apostrophes to double quotes sends the single-quoted block
to the double-quoted block when no key or value contains an apostrophe. -/
theorem map_renderPairs (hs : List (String × String)) (h : noApos hs = true) :
    (renderPairs '\'' hs).map (fun c => if c = '\'' then '"' else c) = renderPairs '"' hs := by
  induction hs with
  | nil => rfl
  | cons p t ih =>
    obtain ⟨k, v⟩ := p
    have hk : ∀ c ∈ k.data, (if c = '\'' then '"' else c) = c := by
      intro c hc
      have := (List.all_eq_true.mp h) (k, v) (List.mem_cons_self _ _)
      simp only [Bool.and_eq_true, List.all_eq_true] at this
      have := this.1 c hc
      simp only [bne_iff_ne, ne_eq] at this
      simp [this]
    have hv : ∀ c ∈ v.data, (if c = '\'' then '"' else c) = c := by
      intro c hc
      have := (List.all_eq_true.mp h) (k, v) (List.mem_cons_self _ _)
      simp only [Bool.and_eq_true, List.all_eq_true] at this
      have := this.2 c hc
      simp only [bne_iff_ne, ne_eq] at this
      simp [this]
    have ht : noApos t = true := by
      rw [noApos, List.all_eq_true]
      intro q hq
      exact (List.all_eq_true.mp h) q (List.mem_cons_of_mem _ hq)
    cases t with
    | nil =>
      show (('\'' :: k.data ++ '\'' :: ':' :: ' ' :: '\'' :: v.data ++ ['\'']).map _) = _
      simp only [List.map_cons, List.map_append, List.map_cons, List.map_nil]
      rw [List.map_congr_left hk, List.map_congr_left hv]
      simp [renderPairs]
    | cons p2 t2 =>
      show (('\'' :: k.data ++ '\'' :: ':' :: ' ' :: '\'' :: v.data ++
        '\'' :: ',' :: ' ' :: renderPairs '\'' (p2 :: t2)).map _) = _
      simp only [List.map_cons, List.map_append]
      rw [List.map_congr_left hk, List.map_congr_left hv, ih ht]
      simp [renderPairs]

/-- The double-quoted block is unchanged by the same map. -/
theorem map_renderPairs_id (hs : List (String × String)) (h : noApos hs = true) :
    (renderPairs '"' hs).map (fun c => if c = '\'' then '"' else c) = renderPairs '"' hs := by
  induction hs with
  | nil => rfl
  | cons p t ih =>
    obtain ⟨k, v⟩ := p
    have hk : ∀ c ∈ k.data, (if c = '\'' then '"' else c) = c := by
      intro c hc
      have := (List.all_eq_true.mp h) (k, v) (List.mem_cons_self _ _)
      simp only [Bool.and_eq_true, List.all_eq_true] at this
      have := this.1 c hc
      simp only [bne_iff_ne, ne_eq] at this
      simp [this]
    have hv : ∀ c ∈ v.data, (if c = '\'' then '"' else c) = c := by
      intro c hc
      have := (List.all_eq_true.mp h) (k, v) (List.mem_cons_self _ _)
      simp only [Bool.and_eq_true, List.all_eq_true] at this
      have := this.2 c hc
      simp only [bne_iff_ne, ne_eq] at this
      simp [this]
    have ht : noApos t = true := by
      rw [noApos, List.all_eq_true]
      intro q hq
      exact (List.all_eq_true.mp h) q (List.mem_cons_of_mem _ hq)
    cases t with
    | nil =>
      show (('"' :: k.data ++ '"' :: ':' :: ' ' :: '"' :: v.data ++ ['"']).map _) = _
      simp only [List.map_cons, List.map_append, List.map_nil]
      rw [List.map_congr_left hk, List.map_congr_left hv]
      simp [renderPairs]
    | cons p2 t2 =>
      show (('"' :: k.data ++ '"' :: ':' :: ' ' :: '"' :: v.data ++
        '"' :: ',' :: ' ' :: renderPairs '"' (p2 :: t2)).map _) = _
      simp only [List.map_cons, List.map_append]
      rw [List.map_congr_left hk, List.map_congr_left hv, ih ht]
      simp [renderPairs]

/-- C9: on header blocks whose keys and values carry no apostrophe, the
header-parsing stage of `extract_fetch_data` (quote normalization by
`replace("'", '"')` followed by `json.loads`, lines 62-63) gives the
same result for the single-quoted block as for the equivalent
double-quoted block. -/
theorem header_quote_equiv (hs : List (String × String)) (h : noApos hs = true) :
    loadsL (pyReplace (renderHs '\'' hs) ['\''] ['"']) =
      loadsL (pyReplace (renderHs '"' hs) ['\''] ['"']) := by
  have h1 : pyReplace (renderHs '\'' hs) ['\''] ['"'] = renderHs '"' hs := by
    rw [pyReplace_single]
    show ('\x7b' :: renderPairs '\'' hs ++ ['\x7d']).map _ = _
    simp only [List.map_cons, List.map_append, List.map_nil]
    rw [map_renderPairs hs h]
    rfl
  have h2 : pyReplace (renderHs '"' hs) ['\''] ['"'] = renderHs '"' hs := by
    rw [pyReplace_single]
    show ('\x7b' :: renderPairs '"' hs ++ ['\x7d']).map _ = _
    simp only [List.map_cons, List.map_append, List.map_nil]
    rw [map_renderPairs_id hs h]
    rfl
  rw [h1, h2]

/-- Scenario A with the headers block single-quoted, as a capture tool
might emit it. -/
def scnASingleQ : String :=
  "fetch(\"https://discord.com/api/v9/channels/123/messages\", \x7b\"headers\": \x7b'authorization': 'X'\x7d, \"body\": \"\x7b\\\"content\\\":\\\"hi\\\",\\\"nonce\\\":\\\"111\\\"\x7d\"\x7d)"

/-- C9 witness: the header stage agrees on a concrete block in both
quoting styles, and the full extraction of the single-quoted Scenario-A
capture equals that of the double-quoted one. -/
theorem header_quote_equiv_witness :
    loadsL (pyReplace (renderHs '\'' [("authorization", "X")]) ['\''] ['"']) =
      loadsL (pyReplace (renderHs '"' [("authorization", "X")]) ['\''] ['"']) ∧
    extract_fetch_data scnASingleQ = extract_fetch_data scnA :=
  ⟨header_quote_equiv [("authorization", "X")] (by decide), by decide⟩

/-! ## C10 — nested braces defeat the fixed-shape scans -/

/-- A capture identical to Scenario A except that its headers block
holds an object-valued entry. -/
def scnNestedHeaders : String :=
  "fetch(\"https://discord.com/api/v9/channels/123/messages\", \x7b\"headers\": \x7b\"authorization\": \"X\", \"nested\": \x7b\"a\": \"b\"\x7d\x7d, \"body\": \"\x7b\\\"content\\\":\\\"hi\\\",\\\"nonce\\\":\\\"111\\\"\x7d\"\x7d)"

/-- A capture identical to Scenario A except that its stringified body
holds an object-valued field. -/
def scnNestedBody : String :=
  "fetch(\"https://discord.com/api/v9/channels/123/messages\", \x7b\"headers\": \x7b\"authorization\": \"X\"\x7d, \"body\": \"\x7b\\\"content\\\":\\\"hi\\\",\\\"nonce\\\":\\\"111\\\",\\\"ref\\\":\x7b\\\"id\\\":\\\"5\\\"\x7d\x7d\"\x7d)"

/-- C10: there are syntactically valid captures for the recognized
messages endpoint on which extraction fails solely because of a nested
`\x7b…\x7d` object.  With the nested object in the headers, the header
scan stops at the first closing brace, so the truncated fragment fails
structured parsing; with the nested object in the body, the body scan
(whose group must be followed by `"`força) cannot match at all.  The same
captures without the nested object extract successfully (they are
Scenario A). -/
theorem nested_brace_failures :
    (searchWith matchUrlAt scnNestedHeaders.data =
      some "https://discord.com/api/v9/channels/123/messages".data ∧
     searchWith matchHeadersAt scnNestedHeaders.data =
      some "\x7b\"authorization\": \"X\", \"nested\": \x7b\"a\": \"b\"\x7d".data ∧
     loadsL (pyReplace "\x7b\"authorization\": \"X\", \"nested\": \x7b\"a\": \"b\"\x7d".data
       ['\''] ['"']) = none ∧
     extract_fetch_data scnNestedHeaders = none) ∧
    (searchWith matchUrlAt scnNestedBody.data =
      some "https://discord.com/api/v9/channels/123/messages".data ∧
     searchWith matchBodyAt scnNestedBody.data = none ∧
     extract_fetch_data scnNestedBody = none) ∧
    extract_fetch_data scnA = some fdA := by
  exact ⟨⟨by decide, by decide, by decide, by decide⟩, ⟨by decide, by decide, by decide⟩,
    by decide⟩

/-! ## C6 — the body round trip.

First the quote escaping `body_json.replace('"', '\\"')` of the
rewriter and the unescaping `replace('\\"', '"')` of the extractor. -/

/-- Specification of `replace('"', '\\"')`: a character map into
strings. -/
def escQ : List Char → List Char
  | [] => []
  | c :: t => (if c = '"' then ['\\', '"'] else [c]) ++ escQ t

theorem replF_escQ : ∀ (s : List Char) (f : Nat), s.length ≤ f →
    replF ['"'] ['\\', '"'] f s = escQ s
  | [], f, _ => by cases f <;> rfl
  | c :: rest, 0, hf => by simp at hf
  | c :: rest, f+1, hf => by
    have hr : rest.length ≤ f := by simp at hf; omega
    show (if ['"'].isPrefixOf (c :: rest) then
        ['\\', '"'] ++ replF ['"'] ['\\', '"'] f (List.drop (['"'].length - 1) rest)
      else c :: replF ['"'] ['\\', '"'] f rest) = _
    by_cases hc : c = '"'
    · simp [List.isPrefixOf, hc, replF_escQ rest f hr, escQ]
    · have : (['"'].isPrefixOf (c :: rest)) = false := by
        simp [List.isPrefixOf]
        exact fun he => absurd he.symm hc
      simp [this, hc, replF_escQ rest f hr, escQ]

theorem pyReplace_escQ (s : List Char) : pyReplace s ['"'] ['\\', '"'] = escQ s :=
  replF_escQ s s.length (Nat.le_refl _)

/-- `escQ` output never begins with a bare quote. -/
theorem escQ_head_ne_quote : ∀ (s : List Char) (t : List Char), escQ s = '"' :: t → False := by
  intro s t h
  cases s with
  | nil => exact absurd h (by simp [escQ])
  | cons c r =>
    by_cases hc : c = '"'
    · rw [escQ, if_pos hc] at h
      exact absurd (List.head_eq_of_cons_eq h) (by decide)
    · rw [escQ, if_neg hc] at h
      exact hc (List.head_eq_of_cons_eq h)

theorem replF_unesc_escQ : ∀ (s : List Char) (f : Nat), (escQ s).length ≤ f →
    replF ['\\', '"'] ['"'] f (escQ s) = s
  | [], f, _ => by cases f <;> rfl
  | c :: rest, f, hf => by
    by_cases hc : c = '"'
    · subst hc
      have hlen : (escQ ('"' :: rest)).length = (escQ rest).length + 2 := by
        simp [escQ]
      obtain ⟨f', rfl⟩ : ∃ f', f = f' + 1 := by
        refine ⟨f - 1, ?_⟩
        omega
      have hr : (escQ rest).length ≤ f' := by omega
      show replF ['\\', '"'] ['"'] (f' + 1) ('\\' :: '"' :: escQ rest) = _
      show (if ['\\', '"'].isPrefixOf ('\\' :: '"' :: escQ rest) then
          ['"'] ++ replF ['\\', '"'] ['"'] f' (List.drop (['\\', '"'].length - 1) ('"' :: escQ rest))
        else _) = _
      rw [if_pos (by simp [List.isPrefixOf])]
      show '"' :: replF ['\\', '"'] ['"'] f' (escQ rest) = _
      rw [replF_unesc_escQ rest f' hr]
    · have hesc : escQ (c :: rest) = c :: escQ rest := by
        rw [escQ, if_neg hc]
        simp
      rw [hesc] at hf ⊢
      obtain ⟨f', rfl⟩ : ∃ f', f = f' + 1 := by
        refine ⟨f - 1, ?_⟩
        simp at hf
        omega
      have hr : (escQ rest).length ≤ f' := by simp at hf; omega
      have hnp : (['\\', '"'].isPrefixOf (c :: escQ rest)) = false := by
        by_cases hbs : c = '\\'
        · subst hbs
          cases hq : escQ rest with
          | nil => simp [List.isPrefixOf, hq]
          | cons d dt =>
            have hd : d ≠ '"' := by
              intro hdq
              exact escQ_head_ne_quote rest dt (hdq ▸ hq)
            simp [List.isPrefixOf, hq]
            exact fun he => absurd he.symm hd
        · simp [List.isPrefixOf]
          exact fun he => absurd he.symm hbs
      show (if ['\\', '"'].isPrefixOf (c :: escQ rest) then _
        else c :: replF ['\\', '"'] ['"'] f' (escQ rest)) = _
      rw [hnp]
      show c :: replF ['\\', '"'] ['"'] f' (escQ rest) = _
      rw [replF_unesc_escQ rest f' hr]

/-- Unescaping inverts the rewriter's quote escaping. -/
theorem pyReplace_unesc_escQ (s : List Char) :
    pyReplace (escQ s) ['\\', '"'] ['"'] = s :=
  replF_unesc_escQ s (escQ s).length (Nat.le_refl _)

/-! ### Parsing back a `json.dumps`-escaped string -/

theorem hexVal_hexDigL : ∀ d < 16, hexVal (hexDigL d) = some d := by decide

theorem parseHex4_hex4 (n : Nat) (hn : n < 65536) (r : List Char) :
    parseHex4 (hex4 n ++ r) = some (n, r) := by
  have h1 := hexVal_hexDigL (n / 4096 % 16) (by omega)
  have h2 := hexVal_hexDigL (n / 256 % 16) (by omega)
  have h3 := hexVal_hexDigL (n / 16 % 16) (by omega)
  have h4 := hexVal_hexDigL (n % 16) (by omega)
  show (match hexVal (hexDigL (n / 4096 % 16)), hexVal (hexDigL (n / 256 % 16)),
      hexVal (hexDigL (n / 16 % 16)), hexVal (hexDigL (n % 16)) with
    | some x, some y, some z, some w => some (4096 * x + 256 * y + 16 * z + w, r)
    | _, _, _, _ => none) = some (n, r)
  rw [h1, h2, h3, h4]
  show some (4096 * (n / 4096 % 16) + 256 * (n / 256 % 16) + 16 * (n / 16 % 16) + n % 16, r) = _
  have he : 4096 * (n / 4096 % 16) + 256 * (n / 256 % 16) + 16 * (n / 16 % 16) + n % 16 = n := by
    omega
  rw [he]

/-- Validity range of a scalar value, from the `Char` invariant. -/
theorem char_toNat_range (c : Char) :
    c.toNat < 55296 ∨ (57343 < c.toNat ∧ c.toNat < 1114112) := c.valid

/-- Parsing one `\uXXXX\uXXXX` surrogate pair (stated over opaque code
units). -/
theorem parseStrBody_surrogate (hi lo : Nat) (rest : List Char) (f : Nat)
    (hh1 : 55296 ≤ hi) (hh2 : hi < 56320) (hl1 : 56320 ≤ lo) (hl2 : lo < 57344) :
    parseStrBody (f+1) ('\\' :: 'u' :: (hex4 hi ++ ('\\' :: 'u' :: (hex4 lo ++ rest)))) =
      (parseStrBody f rest).map
        (fun p => (Char.ofNat (65536 + (hi - 55296) * 1024 + (lo - 56320)) :: p.1, p.2)) := by
  simp [parseStrBody, parseHex4_hex4 hi (by omega), parseHex4_hex4 lo (by omega)]
  rw [if_pos ⟨hh1, hh2⟩, if_pos ⟨hl1, hl2⟩]

/-- One escaped character parses back to itself (and the string scanner
then continues behind it). -/
theorem parseStrBody_escJChar (c : Char) (rest : List Char) (f : Nat) :
    parseStrBody (f+1) (escJChar c ++ rest) =
      (parseStrBody f rest).map (fun p => (c :: p.1, p.2)) := by
  by_cases h1 : c = '"'
  · subst h1; simp [parseStrBody, escJChar]
  by_cases h2 : c = '\\'
  · subst h2; simp [parseStrBody, escJChar]
  by_cases h3 : c = '\n'
  · subst h3; simp [parseStrBody, escJChar]
  by_cases h4 : c = '\r'
  · subst h4; simp [parseStrBody, escJChar]
  by_cases h5 : c = '\t'
  · subst h5; simp [parseStrBody, escJChar]
  by_cases h6 : c.toNat = 8
  · have hc : c = '\x08' := Char.eq_of_val_eq (UInt32.toNat.inj
      (by rw [show ('\x08').val.toNat = 8 from rfl]; exact h6))
    subst hc; simp [parseStrBody, escJChar]
  by_cases h7 : c.toNat = 12
  · have hc : c = '\x0c' := Char.eq_of_val_eq (UInt32.toNat.inj
      (by rw [show ('\x0c').val.toNat = 12 from rfl]; exact h7))
    subst hc; simp [parseStrBody, escJChar]
  by_cases h8 : c.toNat < 32 || 126 < c.toNat
  · rw [Bool.or_eq_true, decide_eq_true_eq, decide_eq_true_eq] at h8
    have hesc : escJChar c = (if c.toNat < 65536 then '\\' :: 'u' :: hex4 c.toNat
        else '\\' :: 'u' :: hex4 (55296 + (c.toNat - 65536) / 1024) ++
          '\\' :: 'u' :: hex4 (56320 + (c.toNat - 65536) % 1024)) := by
      unfold escJChar
      rw [if_neg h1, if_neg h2, if_neg h3, if_neg h4, if_neg h5, if_neg h6, if_neg h7,
        if_pos (by rw [Bool.or_eq_true, decide_eq_true_eq, decide_eq_true_eq]; exact h8)]
    have hr := char_toNat_range c
    by_cases h9 : c.toNat < 65536
    · rw [hesc, if_pos h9]
      simp only [List.cons_append]
      simp [parseStrBody, parseHex4_hex4 c.toNat (by omega) rest]
      split_ifs with hs1 hs2
      · exact absurd hs1 (by omega)
      · exact absurd hs2 (by omega)
      · rfl
    · rw [hesc, if_neg h9, List.append_assoc]
      simp only [List.cons_append]
      rw [parseStrBody_surrogate _ _ rest f (by omega) (by omega) (by omega) (by omega)]
      simp only [show 65536 + (55296 + (c.toNat - 65536) / 1024 - 55296) * 1024 +
          (56320 + (c.toNat - 65536) % 1024 - 56320) = c.toNat from by omega,
        Char.ofNat_toNat]
  · -- plain printable character, emitted verbatim
    rw [Bool.or_eq_true, decide_eq_true_eq, decide_eq_true_eq, not_or] at h8
    have hesc : escJChar c = [c] := by
      unfold escJChar
      rw [if_neg h1, if_neg h2, if_neg h3, if_neg h4, if_neg h5, if_neg h6, if_neg h7,
        if_neg (by rw [Bool.or_eq_true, decide_eq_true_eq, decide_eq_true_eq]; omega)]
    rw [hesc]
    show parseStrBody (f+1) (c :: rest) = _
    simp only [parseStrBody]
    rw [if_neg h1, if_neg h2, if_neg (by omega : ¬c.toNat < 32)]

/-- The whole escaped string parses back, consuming the closing quote. -/
theorem parseStrBody_escJ : ∀ (s : List Char) (rest : List Char) (f : Nat), s.length < f →
    parseStrBody f (escJ s ++ '"' :: rest) = some (s, rest)
  | [], rest, f, hf => by
    obtain ⟨f', rfl⟩ : ∃ f', f = f' + 1 := ⟨f - 1, by omega⟩
    simp [escJ, parseStrBody]
  | c :: t, rest, f, hf => by
    obtain ⟨f', rfl⟩ : ∃ f', f = f' + 1 := ⟨f - 1, by omega⟩
    show parseStrBody (f' + 1) ((escJChar c ++ escJ t) ++ '"' :: rest) = _
    rw [List.append_assoc, parseStrBody_escJChar c (escJ t ++ '"' :: rest) f',
      parseStrBody_escJ t rest f' (by simp at hf; omega)]
    rfl

/-! ### Extending a complete number lexeme by a guarded remainder -/

/-- The remainder does not begin with a digit. -/
def headNotDig : List Char → Prop
  | [] => True
  | c :: _ => isDig c = false

/-- The remainder cannot extend a number lexeme: it does not begin with
a digit, a dot, or an exponent letter. -/
def numExtGuard : List Char → Bool
  | [] => true
  | c :: _ => !(isDig c || c = '.' || c = 'e' || c = 'E')

theorem spanDigits_sound : ∀ (s : List Char),
    s = (spanDigits s).1 ++ (spanDigits s).2 ∧
    (∀ c ∈ (spanDigits s).1, isDig c = true) ∧ headNotDig (spanDigits s).2
  | [] => ⟨rfl, by simp [spanDigits], trivial⟩
  | c :: t => by
    by_cases hc : isDig c = true
    · obtain ⟨he, hd, hb⟩ := spanDigits_sound t
      refine ⟨?_, ?_, ?_⟩ <;> simp [spanDigits, hc]
      · exact he
      · exact hd
      · exact hb
    · refine ⟨?_, ?_, ?_⟩ <;> simp [spanDigits, hc]
      simpa [headNotDig] using hc

theorem headNotDig_append (b b' : List Char) (h : headNotDig b)
    (h' : b = [] → headNotDig b') : headNotDig (b ++ b') := by
  cases b with
  | nil => simpa using h' rfl
  | cons c t => simpa [headNotDig] using h

theorem spanDigits_append : ∀ (a b : List Char), (∀ c ∈ a, isDig c = true) → headNotDig b →
    spanDigits (a ++ b) = (a, b)
  | [], [], _, _ => rfl
  | [], c :: t, _, hb => by
    rw [List.nil_append, spanDigits, if_neg (by simpa [headNotDig] using hb)]
  | c :: t, b, ha, hb => by
    rw [List.cons_append, spanDigits, if_pos (ha c (List.mem_cons_self _ _)),
      spanDigits_append t b (fun x hx => ha x (List.mem_cons_of_mem _ hx)) hb]

/-- Shape of a matched fractional group. -/
def fracShape (g : List Char) : Prop :=
  ∃ ds, g = '.' :: ds ∧ ds ≠ [] ∧ (∀ c ∈ ds, isDig c = true)

theorem parseFrac_skip (c : Char) (t : List Char) (hc : c ≠ '.') :
    parseFrac (c :: t) = ([], c :: t) := by
  rw [parseFrac.eq_def]
  split
  next r heq =>
    injection heq with h1 _
    exact absurd h1 hc
  next => rfl

theorem parseFrac_sound (s : List Char) :
    s = (parseFrac s).1 ++ (parseFrac s).2 ∧
    ((parseFrac s).1 = [] ∧ (parseFrac s).2 = s ∨
      (fracShape (parseFrac s).1 ∧ headNotDig (parseFrac s).2)) := by
  cases s with
  | nil => exact ⟨rfl, Or.inl ⟨rfl, rfl⟩⟩
  | cons c t =>
    by_cases hc : c = '.'
    · subst hc
      obtain ⟨he, hd, hb⟩ := spanDigits_sound t
      rcases hs : spanDigits t with ⟨ds, r2⟩
      rw [hs] at he hd hb
      cases ds with
      | nil =>
        rw [show parseFrac ('.' :: t) = ([], '.' :: t) from by rw [parseFrac, hs]]
        exact ⟨rfl, Or.inl ⟨rfl, rfl⟩⟩
      | cons d dt =>
        rw [show parseFrac ('.' :: t) = ('.' :: d :: dt, r2) from by rw [parseFrac, hs]]
        exact ⟨by simpa using he, Or.inr ⟨⟨d :: dt, rfl, by simp, by simpa using hd⟩,
          by simpa using hb⟩⟩
    · rw [parseFrac_skip c t hc]
      exact ⟨rfl, Or.inl ⟨rfl, rfl⟩⟩

theorem parseFrac_append (g b : List Char) (hg : fracShape g) (hb : headNotDig b) :
    parseFrac (g ++ b) = (g, b) := by
  obtain ⟨ds, rfl, hne, hd⟩ := hg
  rw [List.cons_append, parseFrac, spanDigits_append ds b hd hb]
  cases ds with
  | nil => exact absurd rfl hne
  | cons d dt => rfl

/-- Shape of a matched exponent group. -/
def expShape (g : List Char) : Prop :=
  ∃ c sgn ds, (c = 'e' ∨ c = 'E') ∧ (sgn = [] ∨ sgn = ['+'] ∨ sgn = ['-']) ∧
    ds ≠ [] ∧ (∀ x ∈ ds, isDig x = true) ∧ g = c :: sgn ++ ds

theorem parseExp_skip (c : Char) (t : List Char) (hc : ¬(c = 'e' ∨ c = 'E')) :
    parseExp (c :: t) = ([], c :: t) := by
  simp only [parseExp.eq_def]
  rw [if_neg (by simp only [Bool.or_eq_true, decide_eq_true_eq]; exact hc)]

theorem parseExp_sound (s : List Char) :
    s = (parseExp s).1 ++ (parseExp s).2 ∧
    ((parseExp s).1 = [] ∧ (parseExp s).2 = s ∨
      (expShape (parseExp s).1 ∧ headNotDig (parseExp s).2)) := by
  cases s with
  | nil => exact ⟨rfl, Or.inl ⟨rfl, rfl⟩⟩
  | cons c r =>
    by_cases hce : c = 'e' ∨ c = 'E'
    · cases r with
      | nil =>
        rw [show parseExp (c :: []) = ([], c :: []) from by
          simp only [parseExp.eq_def]
          rw [if_pos (by simp only [Bool.or_eq_true, decide_eq_true_eq]; exact hce)]]
        exact ⟨rfl, Or.inl ⟨rfl, rfl⟩⟩
      | cons d rr =>
        by_cases hd : d = '+' ∨ d = '-'
        · obtain ⟨he, hdig, hb⟩ := spanDigits_sound rr
          rcases hs : spanDigits rr with ⟨ds, r3⟩
          rw [hs] at he hdig hb
          cases ds with
          | nil =>
            rw [show parseExp (c :: d :: rr) = ([], c :: d :: rr) from by
              rw [parseExp, if_pos (by simp only [Bool.or_eq_true, decide_eq_true_eq]; exact hce),
                if_pos (by simp only [Bool.or_eq_true, decide_eq_true_eq]; exact hd), hs]]
            exact ⟨rfl, Or.inl ⟨rfl, rfl⟩⟩
          | cons d2 dt =>
            rw [show parseExp (c :: d :: rr) = (c :: d :: d2 :: dt, r3) from by
              rw [parseExp, if_pos (by simp only [Bool.or_eq_true, decide_eq_true_eq]; exact hce),
                if_pos (by simp only [Bool.or_eq_true, decide_eq_true_eq]; exact hd), hs]]
            refine ⟨by simpa using he, Or.inr ⟨⟨c, [d], d2 :: dt, hce, ?_, by simp,
              by simpa using hdig, by simp⟩, by simpa using hb⟩⟩
            rcases hd with h | h <;> simp [h]
        · obtain ⟨he, hdig, hb⟩ := spanDigits_sound (d :: rr)
          rcases hs : spanDigits (d :: rr) with ⟨ds, r3⟩
          rw [hs] at he hdig hb
          cases ds with
          | nil =>
            rw [show parseExp (c :: d :: rr) = ([], c :: d :: rr) from by
              rw [parseExp, if_pos (by simp only [Bool.or_eq_true, decide_eq_true_eq]; exact hce),
                if_neg (by simp only [Bool.or_eq_true, decide_eq_true_eq]; exact hd), hs]]
            exact ⟨rfl, Or.inl ⟨rfl, rfl⟩⟩
          | cons d2 dt =>
            rw [show parseExp (c :: d :: rr) = (c :: d2 :: dt, r3) from by
              rw [parseExp, if_pos (by simp only [Bool.or_eq_true, decide_eq_true_eq]; exact hce),
                if_neg (by simp only [Bool.or_eq_true, decide_eq_true_eq]; exact hd), hs]]
            refine ⟨by simpa using he, Or.inr ⟨⟨c, [], d2 :: dt, hce, Or.inl rfl, by simp,
              by simpa using hdig, by simp⟩, by simpa using hb⟩⟩
    · rw [parseExp_skip c r hce]
      exact ⟨rfl, Or.inl ⟨rfl, rfl⟩⟩

theorem parseExp_append (g b : List Char) (hg : expShape g) (hb : headNotDig b) :
    parseExp (g ++ b) = (g, b) := by
  obtain ⟨c, sgn, ds, hce, hsgn, hne, hd, rfl⟩ := hg
  obtain ⟨d, dt, rfl⟩ : ∃ d dt, ds = d :: dt := by
    cases ds with
    | nil => exact absurd rfl hne
    | cons d dt => exact ⟨d, dt, rfl⟩
  have hddig : isDig d = true := hd d (List.mem_cons_self _ _)
  have hdne : ¬(d = '+' ∨ d = '-') := by
    rintro (h | h) <;> · subst h; simp [isDig] at hddig
  rcases hsgn with rfl | rfl | rfl
  · rw [show (c :: [] ++ d :: dt) ++ b = c :: d :: (dt ++ b) from by simp]
    rw [parseExp, if_pos (by simp only [Bool.or_eq_true, decide_eq_true_eq]; exact hce),
      if_neg (by simp only [Bool.or_eq_true, decide_eq_true_eq]; exact hdne)]
    rw [show d :: (dt ++ b) = (d :: dt) ++ b from rfl, spanDigits_append (d :: dt) b hd hb]
    rfl
  · rw [show (c :: ['+'] ++ d :: dt) ++ b = c :: '+' :: (d :: dt ++ b) from by simp]
    rw [parseExp, if_pos (by simp only [Bool.or_eq_true, decide_eq_true_eq]; exact hce),
      if_pos (by simp)]
    rw [show d :: dt ++ b = (d :: dt) ++ b from rfl, spanDigits_append (d :: dt) b hd hb]
    rfl
  · rw [show (c :: ['-'] ++ d :: dt) ++ b = c :: '-' :: (d :: dt ++ b) from by simp]
    rw [parseExp, if_pos (by simp only [Bool.or_eq_true, decide_eq_true_eq]; exact hce),
      if_pos (by simp)]
    rw [show d :: dt ++ b = (d :: dt) ++ b from rfl, spanDigits_append (d :: dt) b hd hb]
    rfl

theorem numExtGuard_headNotDig (r : List Char) (h : numExtGuard r = true) :
    headNotDig r := by
  cases r with
  | nil => trivial
  | cons c t =>
    simp only [numExtGuard, Bool.not_eq_true', Bool.or_eq_false_iff,
      decide_eq_false_iff_not] at h
    exact h.1.1.1

theorem numExtGuard_cons (c : Char) (t : List Char)
    (h : numExtGuard (c :: t) = true) :
    isDig c = false ∧ c ≠ '.' ∧ c ≠ 'e' ∧ c ≠ 'E' := by
  simp only [numExtGuard, Bool.not_eq_true', Bool.or_eq_false_iff,
    decide_eq_false_iff_not] at h
  exact ⟨h.1.1.1, h.1.1.2, h.1.2, h.2⟩

/-- If the fraction and exponent groups consumed the whole input, a
remainder that cannot extend a number lexeme passes through both groups
untouched. -/
theorem fracExp_extend (s r : List Char)
    (hrest : (parseExp (parseFrac s).2).2 = [])
    (hg : numExtGuard r = true) :
    parseFrac (s ++ r) = ((parseFrac s).1, (parseFrac s).2 ++ r) ∧
    parseExp ((parseFrac s).2 ++ r) = ((parseExp (parseFrac s).2).1, r) := by
  obtain ⟨hfe, hfc⟩ := parseFrac_sound s
  obtain ⟨hee, hec⟩ := parseExp_sound (parseFrac s).2
  have hbr : headNotDig r := numExtGuard_headNotDig r hg
  constructor
  · rcases hfc with ⟨hf1, hf2⟩ | ⟨hshape, hnd⟩
    · rw [hf1, hf2]
      rw [hf2] at hrest hee hec
      rcases hec with ⟨he1, he2⟩ | ⟨heshape, _⟩
      · have hsnil : s = [] := by rw [← he2, hrest]
        subst hsnil
        cases r with
        | nil => rfl
        | cons c t => exact parseFrac_skip c t (numExtGuard_cons c t hg).2.1
      · obtain ⟨c, sgn, ds, hce, _, _, _, he1eq⟩ := heshape
        have hseq : s = c :: (sgn ++ ds) := by
          rw [hee, hrest, he1eq]; simp
        rw [hseq, List.cons_append,
          parseFrac_skip c _ (by rcases hce with rfl | rfl <;> decide)]
    · rw [show s ++ r = (parseFrac s).1 ++ ((parseFrac s).2 ++ r) from by
            rw [← List.append_assoc, ← hfe],
          parseFrac_append _ _ hshape
            (headNotDig_append _ _ hnd (fun _ => hbr))]
  · rcases hec with ⟨he1, he2⟩ | ⟨heshape, _⟩
    · have hfnil : (parseFrac s).2 = [] := by rw [← he2, hrest]
      rw [he1, hfnil]
      cases r with
      | nil => rfl
      | cons c t =>
        rw [List.nil_append,
          parseExp_skip c t (fun hor => by
            rcases hor with rfl | rfl
            · exact (numExtGuard_cons _ t hg).2.2.1 rfl
            · exact (numExtGuard_cons _ t hg).2.2.2 rfl)]
    · rw [show (parseFrac s).2 ++ r = (parseExp (parseFrac s).2).1 ++ r from by
            conv_lhs => rw [hee, hrest]
            simp,
          parseExp_append _ _ heshape hbr]

theorem parseNumTail_extend (pre s r : List Char)
    (hrest : (parseNumTail pre s).2 = [])
    (hg : numExtGuard r = true) :
    parseNumTail pre (s ++ r) = ((parseNumTail pre s).1, r) := by
  obtain ⟨h1, h2⟩ := fracExp_extend s r hrest hg
  simp only [parseNumTail, h1, h2]

theorem parseNumInt_extend (neg : List Char) (c : Char) (rr r lex : List Char)
    (h : parseNumInt neg c rr = some (lex, []))
    (hg : numExtGuard r = true) :
    parseNumInt neg c (rr ++ r) = some (lex, r) := by
  by_cases h0 : c = '0'
  · rw [parseNumInt, if_pos h0] at h ⊢
    injection h with h
    have hrest : (parseNumTail (neg ++ ['0']) rr).2 = [] := by rw [h]
    rw [parseNumTail_extend _ _ r hrest hg,
      show (parseNumTail (neg ++ ['0']) rr).1 = lex from by rw [h]]
  · by_cases hd : isDig c = true
    · rw [parseNumInt, if_neg h0, if_pos hd] at h ⊢
      injection h with h
      obtain ⟨he, hdig, hnd⟩ := spanDigits_sound rr
      have hsp : spanDigits (rr ++ r) = ((spanDigits rr).1, (spanDigits rr).2 ++ r) := by
        rw [show rr ++ r = (spanDigits rr).1 ++ ((spanDigits rr).2 ++ r) from by
              rw [← List.append_assoc, ← he],
            spanDigits_append _ _ hdig
              (headNotDig_append _ _ hnd (fun _ => numExtGuard_headNotDig r hg))]
      rw [hsp]
      have hrest : (parseNumTail (neg ++ c :: (spanDigits rr).1) (spanDigits rr).2).2 = [] := by
        rw [h]
      rw [parseNumTail_extend _ _ r hrest hg,
        show (parseNumTail (neg ++ c :: (spanDigits rr).1) (spanDigits rr).2).1 = lex from by
          rw [h]]
    · rw [parseNumInt, if_neg h0, if_neg hd] at h
      exact absurd h (by simp)

/-- A complete number lexeme followed by a character that cannot extend
it still lexes to exactly the same lexeme, with the remainder passed
through. -/
theorem parseNumLex_extend (l r : List Char)
    (h : parseNumLex l = some (l, []))
    (hg : numExtGuard r = true) :
    parseNumLex (l ++ r) = some (l, r) := by
  cases l with
  | nil => exact absurd h (by simp [parseNumLex])
  | cons c rr =>
    by_cases hm : c = '-'
    · subst hm
      cases rr with
      | nil => exact absurd h (by simp [parseNumLex])
      | cons c2 r2 =>
        rw [List.cons_append, List.cons_append]
        have hred : ∀ (y : List Char),
            parseNumLex ('-' :: c2 :: y) = parseNumInt ['-'] c2 y := fun y => rfl
        rw [hred] at h ⊢
        exact parseNumInt_extend ['-'] c2 r2 r _ h hg
    · rw [List.cons_append]
      simp only [parseNumLex.eq_def] at h ⊢
      rw [if_neg hm] at h ⊢
      exact parseNumInt_extend [] c rr r _ h hg

/-! ## Well-formed values: the image of `json.loads` that `json.dumps`
serializes losslessly -/

/-- A number lexeme the scanner accepts in full. -/
def numLexOk (l : String) : Bool := parseNumLex l.data == some (l.data, [])

mutual

/-- Well-formed value: every number lexeme is a complete `NUMBER_RE`
match and every object has distinct keys (both hold of everything
`json.loads` produces). -/
def wfV : Json → Bool
  | .str _ => true
  | .num l => numLexOk l
  | .bool _ => true
  | .null => true
  | .arr a => wfA a
  | .obj o => wfO o

/-- Well-formed array. -/
def wfA : JArr → Bool
  | .nil => true
  | .cons h t => wfV h && wfA t

/-- Well-formed object: distinct keys, well-formed values. -/
def wfO : JObj → Bool
  | .nil => true
  | .cons k v t => !(JObj.hasKey t k) && wfV v && wfO t

end

theorem lastValD_not_has : ∀ (t : JObj) (k : String) (v : Json), t.hasKey k = false →
    lastValD t k v = v
  | .nil, _, _, _ => rfl
  | .cons k' v' t, k, v, h => by
    have hne : k' ≠ k := by
      intro he; subst he; simp [JObj.hasKey, JObj.lookup] at h
    rw [lastValD, if_neg hne]
    exact lastValD_not_has t k v (by
      simp only [JObj.hasKey, JObj.lookup, if_neg hne] at h
      exact h)

theorem removeKey_not_has : ∀ (t : JObj) (k : String), t.hasKey k = false →
    removeKey t k = t
  | .nil, _, _ => rfl
  | .cons k' v' t, k, h => by
    have hne : k' ≠ k := by
      intro he; subst he; simp [JObj.hasKey, JObj.lookup] at h
    rw [removeKey, if_neg hne]
    rw [removeKey_not_has t k (by
      simp only [JObj.hasKey, JObj.lookup, if_neg hne] at h
      exact h)]

theorem dedupF_wf : ∀ (f : Nat) (o : JObj), wfO o = true → o.len ≤ f → dedupF f o = o
  | f, .nil, _, _ => by cases f <;> rfl
  | 0, .cons k v t, _, hlen => by simp [JObj.len] at hlen
  | f+1, .cons k v t, hwf, hlen => by
    simp only [wfO, Bool.and_eq_true, Bool.not_eq_true'] at hwf
    obtain ⟨⟨hk, _⟩, ht⟩ := hwf
    rw [dedupF, lastValD_not_has t k v hk, removeKey_not_has t k hk,
      dedupF_wf f t ht (by simp only [JObj.len] at hlen; omega)]

/-- On an object with distinct keys, `dict(pairs)` keeps the pairs as
they are. -/
theorem dedupO_wf (o : JObj) (h : wfO o = true) : dedupO o = o :=
  dedupF_wf o.len o h (Nat.le_refl _)

/-! ## Heads of serialized values, and character-class facts -/

theorem isDig_char_ne (c x : Char) (hd : isDig c = true) (hx : isDig x = false) : c ≠ x := by
  intro he; rw [he, hx] at hd; cases hd

theorem isDig_not_ws (c : Char) (hd : isDig c = true) : isJWs c = false := by
  have h1 : c ≠ ' ' := isDig_char_ne c ' ' hd (by decide)
  have h2 : c ≠ '\t' := isDig_char_ne c '\t' hd (by decide)
  have h3 : c ≠ '\n' := isDig_char_ne c '\n' hd (by decide)
  have h4 : c ≠ '\r' := isDig_char_ne c '\r' hd (by decide)
  simp [isJWs, h1, h2, h3, h4]

/-- The first character of a complete number lexeme. -/
theorem numLexOk_head (l : String) (h : numLexOk l = true) :
    ∃ c t, l.data = c :: t ∧ (c = '-' ∨ isDig c = true) := by
  have h' : parseNumLex l.data = some (l.data, []) := by simpa [numLexOk] using h
  cases hld : l.data with
  | nil => rw [hld] at h'; exact absurd h' (by simp [parseNumLex])
  | cons c t =>
    rw [hld] at h'
    refine ⟨c, t, rfl, ?_⟩
    by_cases hm : c = '-'
    · exact Or.inl hm
    · right
      simp only [parseNumLex.eq_def] at h'
      rw [if_neg hm] at h'
      by_cases h0 : c = '0'
      · subst h0; decide
      · by_cases hdg : isDig c = true
        · exact hdg
        · rw [parseNumInt, if_neg h0, if_neg hdg] at h'
          cases h'

theorem numHead_facts (c : Char) (h : c = '-' ∨ isDig c = true) :
    isJWs c = false ∧ c ≠ '"' ∧ c ≠ '\x7b' ∧ c ≠ '[' ∧ c ≠ ']' ∧ c ≠ '\x7d' ∧
      c ≠ 't' ∧ c ≠ 'f' ∧ c ≠ 'n' := by
  rcases h with rfl | hd
  · refine ⟨?_, ?_, ?_, ?_, ?_, ?_, ?_, ?_, ?_⟩ <;> decide
  · exact ⟨isDig_not_ws c hd, isDig_char_ne c '"' hd (by decide),
      isDig_char_ne c '\x7b' hd (by decide), isDig_char_ne c '[' hd (by decide),
      isDig_char_ne c ']' hd (by decide), isDig_char_ne c '\x7d' hd (by decide),
      isDig_char_ne c 't' hd (by decide), isDig_char_ne c 'f' hd (by decide),
      isDig_char_ne c 'n' hd (by decide)⟩

/-- Every serialized well-formed value begins with a non-whitespace
character that is neither `]` nor `\x7d`. -/
theorem dumpsV_head (j : Json) (h : wfV j = true) :
    ∃ c t, dumpsV j = c :: t ∧ isJWs c = false ∧ c ≠ ']' ∧ c ≠ '\x7d' := by
  cases j with
  | str s =>
    exact ⟨'"', escJ s.data ++ ['"'], by rw [dumpsV_str]; rw [List.cons_append],
      by decide, by decide, by decide⟩
  | num l =>
    simp only [wfV] at h
    obtain ⟨c, t, hl, hc⟩ := numLexOk_head l h
    obtain ⟨h1, _, _, _, h5, h6, _⟩ := numHead_facts c hc
    exact ⟨c, t, by rw [dumpsV_num, hl], h1, h5, h6⟩
  | bool b =>
    cases b with
    | true => exact ⟨'t', ['r', 'u', 'e'], by rw [dumpsV_true], by decide, by decide, by decide⟩
    | false => exact ⟨'f', ['a', 'l', 's', 'e'], by rw [dumpsV_false], by decide, by decide, by decide⟩
  | null => exact ⟨'n', ['u', 'l', 'l'], by rw [dumpsV_null], by decide, by decide, by decide⟩
  | arr a => exact ⟨'[', dumpsA a, by rw [dumpsV_arr], by decide, by decide, by decide⟩
  | obj o => exact ⟨'\x7b', dumpsO o, by rw [dumpsV_obj], by decide, by decide, by decide⟩

theorem escJChar_length_pos (c : Char) : 0 < (escJChar c).length := by
  rw [escJChar]
  split_ifs <;> simp [hex4]

theorem escJ_length_ge : ∀ (s : List Char), s.length ≤ (escJ s).length
  | [] => Nat.le_refl _
  | c :: t => by
    rw [escJ]
    simp only [List.length_append, List.length_cons]
    have h1 := escJChar_length_pos c
    have h2 := escJ_length_ge t
    omega

theorem not_isPrefixOf_head (a : Char) (as : List Char) (c : Char) (t : List Char)
    (h : a ≠ c) : (a :: as).isPrefixOf (c :: t) = false := by
  simp [List.isPrefixOf, h]

theorem isPrefixOf_self_append (l r : List Char) : l.isPrefixOf (l ++ r) = true := by
  induction l with
  | nil => simp [List.isPrefixOf]
  | cons c t ih => simp [List.isPrefixOf, ih]

theorem dropWhile_colon (t : List Char) : List.dropWhile isJWs (':' :: t) = ':' :: t := by
  simp [List.dropWhile_cons, isJWs]

theorem dropWhile_comma (t : List Char) : List.dropWhile isJWs (',' :: t) = ',' :: t := by
  simp [List.dropWhile_cons, isJWs]

theorem dropWhile_rbrace (t : List Char) : List.dropWhile isJWs ('\x7d' :: t) = '\x7d' :: t := by
  simp [List.dropWhile_cons, isJWs]

theorem dropWhile_rbracket (t : List Char) : List.dropWhile isJWs (']' :: t) = ']' :: t := by
  simp [List.dropWhile_cons, isJWs]

theorem dropWhile_space (t : List Char) : List.dropWhile isJWs (' ' :: t) = List.dropWhile isJWs t := by
  simp [List.dropWhile_cons, isJWs]

theorem guard_comma (z : List Char) : numExtGuard (',' :: z) = true := by
  simp [numExtGuard, isDig]

theorem guard_rbrace (z : List Char) : numExtGuard ('\x7d' :: z) = true := by
  simp [numExtGuard, isDig]

theorem guard_rbracket (z : List Char) : numExtGuard (']' :: z) = true := by
  simp [numExtGuard, isDig]

/-- The string-body scanner applied to an escaped string with exactly
the fuel the value scanner hands it. -/
theorem parseStrBody_escJ_auto (s rest : List Char) :
    parseStrBody ((escJ s ++ '"' :: rest).length + 1) (escJ s ++ '"' :: rest) =
      some (s, rest) :=
  parseStrBody_escJ s rest _ (by
    simp only [List.length_append, List.length_cons]
    have := escJ_length_ge s
    omega)

theorem dropWhile_dumpsV (v : Json) (h : wfV v = true) (x : List Char) :
    List.dropWhile isJWs (dumpsV v ++ x) = dumpsV v ++ x := by
  obtain ⟨c, y, hd, hn, _, _⟩ := dumpsV_head v h
  rw [hd, List.cons_append]
  simp [List.dropWhile_cons, hn]

theorem dropWhile_dumpsO_cons (k2 : String) (v2 : Json) (t2 : JObj) (x : List Char) :
    List.dropWhile isJWs (dumpsO (JObj.cons k2 v2 t2) ++ x) =
      dumpsO (JObj.cons k2 v2 t2) ++ x := by
  cases t2 with
  | nil =>
    rw [dumpsO_single]
    simp [List.dropWhile_cons, isJWs]
  | cons k3 v3 t3 =>
    rw [dumpsO_cons2]
    simp [List.dropWhile_cons, isJWs]

theorem dropWhile_dumpsA_cons (h : Json) (t : JArr) (x : List Char) (hw : wfV h = true) :
    List.dropWhile isJWs (dumpsA (JArr.cons h t) ++ x) = dumpsA (JArr.cons h t) ++ x := by
  obtain ⟨c, y, hd, hn, _, _⟩ := dumpsV_head h hw
  cases t with
  | nil =>
    rw [dumpsA_single, hd]
    simp [List.dropWhile_cons, hn]
  | cons h2 t2 =>
    rw [dumpsA_cons2, hd]
    simp [List.dropWhile_cons, hn]

/-! ## One-step views of the value scanner at each head character -/

theorem parseVal_quote (f : Nat) (r : List Char) :
    parseVal (f+1) ('"' :: r) =
      (match parseStrBody (r.length + 1) r with
       | some (cs, rest) => some (.str (String.mk cs), rest)
       | none => none) := rfl

theorem parseVal_brace (f : Nat) (r : List Char) :
    parseVal (f+1) ('\x7b' :: r) =
      (match List.dropWhile isJWs r with
       | '\x7d' :: r2 => some (.obj .nil, r2)
       | r1 =>
         match parseFields f r1 with
         | some (fs, rest) => some (.obj (dedupO fs), rest)
         | none => none) := rfl

theorem parseVal_bracket (f : Nat) (r : List Char) :
    parseVal (f+1) ('[' :: r) =
      (match List.dropWhile isJWs r with
       | ']' :: r2 => some (.arr .nil, r2)
       | r1 =>
         match parseElems f r1 with
         | some (es, rest) => some (.arr es, rest)
         | none => none) := rfl

/-- The scanner's fall-through branch, reached whenever the head
character opens no string, object or array. -/
theorem parseVal_default (f : Nat) (c : Char) (t : List Char)
    (h1 : c ≠ '"') (h2 : c ≠ '\x7b') (h3 : c ≠ '[') :
    parseVal (f+1) (c :: t) =
      (if "true".data.isPrefixOf (c :: t) then some (.bool true, (c :: t).drop 4)
       else if "false".data.isPrefixOf (c :: t) then some (.bool false, (c :: t).drop 5)
       else if "null".data.isPrefixOf (c :: t) then some (.null, (c :: t).drop 4)
       else
         match parseNumLex (c :: t) with
         | some (lex, rest) => some (.num (String.mk lex), rest)
         | none =>
           if "NaN".data.isPrefixOf (c :: t) then some (.num "NaN", (c :: t).drop 3)
           else if "Infinity".data.isPrefixOf (c :: t) then some (.num "Infinity", (c :: t).drop 8)
           else if "-Infinity".data.isPrefixOf (c :: t) then
             some (.num "-Infinity", (c :: t).drop 9)
           else none) := by
  simp only [parseVal.eq_def]
  split
  next heq => exact absurd heq.symm (by simp)
  next r heq =>
    obtain ⟨rfl, rfl⟩ : c = '"' ∧ t = r := by
      have := List.cons.injEq c t '"' r ▸ heq
      exact ⟨(List.cons.inj heq).1, (List.cons.inj heq).2⟩
    exact absurd rfl h1
  next r heq => exact absurd (List.cons.inj heq).1 h2
  next r heq => exact absurd (List.cons.inj heq).1 h3
  next => rfl

/-- Scanning a serialized number lexeme followed by a non-extending
remainder yields that number. -/
theorem parseVal_num (f : Nat) (l : String) (rest : List Char)
    (h : numLexOk l = true) (hg : numExtGuard rest = true) :
    parseVal (f+1) (l.data ++ rest) = some (.num l, rest) := by
  obtain ⟨c, t, hl, hc⟩ := numLexOk_head l h
  obtain ⟨_, hq, hbr, hbk, _, _, ht, hf', hn⟩ := numHead_facts c hc
  have hlex : parseNumLex (l.data ++ rest) = some (l.data, rest) :=
    parseNumLex_extend l.data rest (by simpa [numLexOk] using h) hg
  rw [hl, List.cons_append] at hlex
  rw [hl, List.cons_append, parseVal_default f c (t ++ rest) hq hbr hbk,
    if_neg (show ¬("true".data.isPrefixOf (c :: (t ++ rest)) = true) from by
      rw [show "true".data = 't' :: "rue".data from rfl,
        not_isPrefixOf_head 't' _ c _ (Ne.symm ht)]
      exact Bool.false_ne_true),
    if_neg (show ¬("false".data.isPrefixOf (c :: (t ++ rest)) = true) from by
      rw [show "false".data = 'f' :: "alse".data from rfl,
        not_isPrefixOf_head 'f' _ c _ (Ne.symm hf')]
      exact Bool.false_ne_true),
    if_neg (show ¬("null".data.isPrefixOf (c :: (t ++ rest)) = true) from by
      rw [show "null".data = 'n' :: "ull".data from rfl,
        not_isPrefixOf_head 'n' _ c _ (Ne.symm hn)]
      exact Bool.false_ne_true),
    hlex, ← hl]

mutual

/-- The scanner fuel `loads` computes from the input length covers the
depth of the serialized value. -/
theorem jsize_le_dumps : ∀ (j : Json), wfV j = true → jsize j ≤ 2 * (dumpsV j).length
  | .str s, _ => by
    rw [dumpsV_str, show jsize (Json.str s) = 1 from by simp [jsize]]
    simp only [List.cons_append, List.length_cons, List.length_append]
    omega
  | .num l, h => by
    simp only [wfV] at h
    obtain ⟨c, t, hl, _⟩ := numLexOk_head l h
    rw [dumpsV_num, hl, show jsize (Json.num l) = 1 from by simp [jsize]]
    simp only [List.length_cons]
    omega
  | .bool true, _ => by
    rw [dumpsV_true, show jsize (Json.bool true) = 1 from by simp [jsize]]
    decide
  | .bool false, _ => by
    rw [dumpsV_false, show jsize (Json.bool false) = 1 from by simp [jsize]]
    decide
  | .null, _ => by
    rw [dumpsV_null, show jsize Json.null = 1 from by simp [jsize]]
    decide
  | .arr a, h => by
    simp only [wfV] at h
    have ha := jsizeA_le_dumps a h
    rw [dumpsV_arr, show jsize (Json.arr a) = 1 + jsizeA a from by simp [jsize]]
    simp only [List.length_cons]
    omega
  | .obj o, h => by
    simp only [wfV] at h
    have ho := jsizeO_le_dumps o h
    rw [dumpsV_obj, show jsize (Json.obj o) = 1 + jsizeO o from by simp [jsize]]
    simp only [List.length_cons]
    omega

/-- Array form of `jsize_le_dumps`. -/
theorem jsizeA_le_dumps : ∀ (a : JArr), wfA a = true → jsizeA a ≤ 2 * (dumpsA a).length
  | .nil, _ => by
    rw [dumpsA_nil, show jsizeA JArr.nil = 1 from by simp [jsizeA]]
    decide
  | .cons h1 .nil, h => by
    simp only [wfA, Bool.and_eq_true] at h
    have hv := jsize_le_dumps h1 h.1
    rw [dumpsA_single, show jsizeA (JArr.cons h1 JArr.nil) = 1 + jsize h1 + 1 from by
      simp only [jsizeA]]
    simp only [List.length_append, List.length_cons, List.length_nil]
    omega
  | .cons h1 (.cons h2 t), h => by
    simp only [wfA, Bool.and_eq_true] at h
    have hv := jsize_le_dumps h1 h.1
    have ht := jsizeA_le_dumps (JArr.cons h2 t) (by
      simp only [wfA, Bool.and_eq_true]
      exact h.2)
    rw [dumpsA_cons2, show jsizeA (JArr.cons h1 (JArr.cons h2 t)) =
        1 + jsize h1 + jsizeA (JArr.cons h2 t) from by simp only [jsizeA]]
    simp only [List.length_append, List.length_cons, List.length_nil]
    omega

/-- Object form of `jsize_le_dumps`. -/
theorem jsizeO_le_dumps : ∀ (o : JObj), wfO o = true → jsizeO o ≤ 2 * (dumpsO o).length
  | .nil, _ => by
    rw [dumpsO_nil, show jsizeO JObj.nil = 1 from by simp [jsizeO]]
    decide
  | .cons k v .nil, h => by
    simp only [wfO, Bool.and_eq_true] at h
    have hv := jsize_le_dumps v h.1.2
    rw [dumpsO_single, show jsizeO (JObj.cons k v JObj.nil) = 1 + jsize v + 1 from by
      simp only [jsizeO]]
    simp only [List.length_append, List.length_cons, List.length_nil]
    omega
  | .cons k v (.cons k2 v2 t), h => by
    simp only [wfO, Bool.and_eq_true] at h
    have hv := jsize_le_dumps v h.1.2
    have ht := jsizeO_le_dumps (JObj.cons k2 v2 t) (by
      simp only [wfO, Bool.and_eq_true]
      exact h.2)
    rw [dumpsO_cons2, show jsizeO (JObj.cons k v (JObj.cons k2 v2 t)) =
        1 + jsize v + jsizeO (JObj.cons k2 v2 t) from by simp only [jsizeO]]
    simp only [List.length_append, List.length_cons, List.length_nil]
    omega

end

theorem mk_data (s : String) : String.mk s.data = s := rfl

theorem parseFields_quote (f : Nat) (r : List Char) :
    parseFields (f+1) ('"' :: r) =
      (match parseStrBody (r.length + 1) r with
       | some (kcs, r1) =>
         match List.dropWhile isJWs r1 with
         | ':' :: r3 =>
           match parseVal f (List.dropWhile isJWs r3) with
           | some (v, r5) =>
             match List.dropWhile isJWs r5 with
             | ',' :: r7 =>
               match parseFields f (List.dropWhile isJWs r7) with
               | some (fs, r9) => some (.cons (String.mk kcs) v fs, r9)
               | none => none
             | '\x7d' :: r7 => some (.cons (String.mk kcs) v .nil, r7)
             | _ => none
           | none => none
         | _ => none
       | none => none) := rfl

mutual

/-- Scanning the default serialization of a well-formed value, with any
non-extending remainder appended, recovers exactly that value. -/
theorem pvRound : ∀ (j : Json) (f : Nat) (rest : List Char), wfV j = true →
    jsize j ≤ f → numExtGuard rest = true →
    parseVal f (dumpsV j ++ rest) = some (j, rest)
  | j, 0, _, _, hf, _ => absurd (Nat.lt_of_lt_of_le (jsize_pos j) hf) (by omega)
  | .str s, f+1, rest, _, _, _ => by
    rw [dumpsV_str,
      show ('"' :: escJ s.data ++ ['"']) ++ rest = '"' :: (escJ s.data ++ '"' :: rest) from by
        simp,
      parseVal_quote, parseStrBody_escJ_auto s.data rest]
  | .num l, f+1, rest, hwf, _, hg => by
    rw [dumpsV_num]
    exact parseVal_num f l rest (by simpa only [wfV] using hwf) hg
  | .bool true, f+1, rest, _, _, _ => by
    rw [dumpsV_true,
      show "true".data ++ rest = 't' :: ('r' :: 'u' :: 'e' :: rest) from rfl,
      parseVal_default f 't' _ (by decide) (by decide) (by decide),
      if_pos (show "true".data.isPrefixOf ('t' :: ('r' :: 'u' :: 'e' :: rest)) = true from
        isPrefixOf_self_append "true".data rest)]
    rfl
  | .bool false, f+1, rest, _, _, _ => by
    rw [dumpsV_false,
      show "false".data ++ rest = 'f' :: ('a' :: 'l' :: 's' :: 'e' :: rest) from rfl,
      parseVal_default f 'f' _ (by decide) (by decide) (by decide),
      if_neg (show ¬("true".data.isPrefixOf ('f' :: ('a' :: 'l' :: 's' :: 'e' :: rest)) = true) from by
        rw [show "true".data = 't' :: "rue".data from rfl,
          not_isPrefixOf_head 't' _ 'f' _ (by decide)]
        exact Bool.false_ne_true),
      if_pos (show "false".data.isPrefixOf ('f' :: ('a' :: 'l' :: 's' :: 'e' :: rest)) = true from
        isPrefixOf_self_append "false".data rest)]
    rfl
  | .null, f+1, rest, _, _, _ => by
    rw [dumpsV_null,
      show "null".data ++ rest = 'n' :: ('u' :: 'l' :: 'l' :: rest) from rfl,
      parseVal_default f 'n' _ (by decide) (by decide) (by decide),
      if_neg (show ¬("true".data.isPrefixOf ('n' :: ('u' :: 'l' :: 'l' :: rest)) = true) from by
        rw [show "true".data = 't' :: "rue".data from rfl,
          not_isPrefixOf_head 't' _ 'n' _ (by decide)]
        exact Bool.false_ne_true),
      if_neg (show ¬("false".data.isPrefixOf ('n' :: ('u' :: 'l' :: 'l' :: rest)) = true) from by
        rw [show "false".data = 'f' :: "alse".data from rfl,
          not_isPrefixOf_head 'f' _ 'n' _ (by decide)]
        exact Bool.false_ne_true),
      if_pos (show "null".data.isPrefixOf ('n' :: ('u' :: 'l' :: 'l' :: rest)) = true from
        isPrefixOf_self_append "null".data rest)]
    rfl
  | .arr a, f+1, rest, hwf, hf, hg => by
    simp only [wfV] at hwf
    rw [dumpsV_arr, List.cons_append, parseVal_bracket]
    cases a with
    | nil =>
      rw [dumpsA_nil, List.singleton_append, dropWhile_rbracket]
      rfl
    | cons h1 t =>
      have hwh : wfV h1 = true := by
        simp only [wfA, Bool.and_eq_true] at hwf
        exact hwf.1
      rw [dropWhile_dumpsA_cons h1 t rest hwh]
      obtain ⟨c, y, hd, _, hne1, _⟩ := dumpsV_head h1 hwh
      split
      next r2 heq =>
        exfalso
        cases t with
        | nil =>
          rw [dumpsA_single, hd] at heq
          simp only [List.cons_append, List.append_assoc] at heq
          exact hne1 (List.cons.inj heq).1
        | cons h2 t2 =>
          rw [dumpsA_cons2, hd] at heq
          simp only [List.cons_append, List.append_assoc] at heq
          exact hne1 (List.cons.inj heq).1
      next =>
        rw [peRound (JArr.cons h1 t) f rest hwf (by simp) (by
              rw [show jsize (Json.arr (JArr.cons h1 t)) = 1 + jsizeA (JArr.cons h1 t) from by
                    simp [jsize]] at hf
              omega) hg]
  | .obj o, f+1, rest, hwf, hf, _ => by
    simp only [wfV] at hwf
    rw [dumpsV_obj, List.cons_append, parseVal_brace]
    cases o with
    | nil =>
      rw [dumpsO_nil, List.singleton_append, dropWhile_rbrace]
      rfl
    | cons k v t =>
      rw [dropWhile_dumpsO_cons k v t rest]
      split
      next r2 heq =>
        exfalso
        cases t with
        | nil =>
          rw [dumpsO_single] at heq
          simp only [List.cons_append, List.append_assoc] at heq
          exact absurd (List.cons.inj heq).1 (by decide)
        | cons k2 v2 t2 =>
          rw [dumpsO_cons2] at heq
          simp only [List.cons_append, List.append_assoc] at heq
          exact absurd (List.cons.inj heq).1 (by decide)
      next =>
        rw [pfRound (JObj.cons k v t) f rest hwf (by simp) (by
              rw [show jsize (Json.obj (JObj.cons k v t)) = 1 + jsizeO (JObj.cons k v t) from by
                    simp [jsize]] at hf
              omega),
          show (match some (JObj.cons k v t, rest) with
             | some (fs, r) => some (Json.obj (dedupO fs), r)
             | none => none) = some (Json.obj (dedupO (JObj.cons k v t)), rest) from rfl,
          dedupO_wf (JObj.cons k v t) hwf]

/-- Scanning the serialized fields of a nonempty well-formed object
(closing brace included) recovers exactly those fields. -/
theorem pfRound : ∀ (o : JObj) (f : Nat) (rest : List Char), wfO o = true → o ≠ .nil →
    jsizeO o ≤ f → parseFields f (dumpsO o ++ rest) = some (o, rest)
  | .nil, _, _, _, hne, _ => absurd rfl hne
  | o, 0, _, _, _, hf => absurd (Nat.lt_of_lt_of_le (jsizeO_pos o) hf) (by omega)
  | .cons k v t, f+1, rest, hw, _, hf => by
    have hv : wfV v = true := by
      have h' := hw
      simp only [wfO, Bool.and_eq_true] at h'
      exact h'.1.2
    have ht : wfO t = true := by
      have h' := hw
      simp only [wfO, Bool.and_eq_true] at h'
      exact h'.2
    have hfv : jsize v ≤ f := by
      rw [show jsizeO (JObj.cons k v t) = 1 + jsize v + jsizeO t from by
            simp only [jsizeO]] at hf
      omega
    cases t with
    | nil =>
      rw [dumpsO_single,
        show ('"' :: escJ k.data ++ "\": ".data ++ dumpsV v ++ ['\x7d']) ++ rest =
          '"' :: (escJ k.data ++ '"' :: (':' :: ' ' :: (dumpsV v ++ '\x7d' :: rest))) from by
            rw [show "\": ".data = ['"', ':', ' '] from rfl]
            simp,
        parseFields_quote]
      simp only [show parseStrBody ((escJ k.data ++ '"' :: (':' :: ' ' ::
            (dumpsV v ++ '\x7d' :: rest))).length + 1)
            (escJ k.data ++ '"' :: (':' :: ' ' :: (dumpsV v ++ '\x7d' :: rest))) =
            some (k.data, ':' :: ' ' :: (dumpsV v ++ '\x7d' :: rest)) from
          parseStrBody_escJ_auto k.data _,
        dropWhile_colon, dropWhile_space, dropWhile_dumpsV v hv,
        pvRound v f ('\x7d' :: rest) hv hfv (guard_rbrace rest),
        dropWhile_rbrace, mk_data]
    | cons k2 v2 t2 =>
      have hft : jsizeO (JObj.cons k2 v2 t2) ≤ f := by
        rw [show jsizeO (JObj.cons k v (JObj.cons k2 v2 t2)) =
              1 + jsize v + jsizeO (JObj.cons k2 v2 t2) from by simp only [jsizeO]] at hf
        omega
      rw [dumpsO_cons2,
        show ('"' :: escJ k.data ++ "\": ".data ++ dumpsV v ++ ", ".data ++
            dumpsO (JObj.cons k2 v2 t2)) ++ rest =
          '"' :: (escJ k.data ++ '"' :: (':' :: ' ' :: (dumpsV v ++ ',' :: ' ' ::
            (dumpsO (JObj.cons k2 v2 t2) ++ rest)))) from by
            rw [show "\": ".data = ['"', ':', ' '] from rfl,
              show ", ".data = [',', ' '] from rfl]
            simp,
        parseFields_quote]
      simp only [show parseStrBody ((escJ k.data ++ '"' :: (':' :: ' ' :: (dumpsV v ++
            ',' :: ' ' :: (dumpsO (JObj.cons k2 v2 t2) ++ rest)))).length + 1)
            (escJ k.data ++ '"' :: (':' :: ' ' :: (dumpsV v ++ ',' :: ' ' ::
            (dumpsO (JObj.cons k2 v2 t2) ++ rest)))) =
            some (k.data, ':' :: ' ' :: (dumpsV v ++ ',' :: ' ' ::
              (dumpsO (JObj.cons k2 v2 t2) ++ rest))) from
          parseStrBody_escJ_auto k.data _,
        dropWhile_colon, dropWhile_space, dropWhile_dumpsV v hv,
        pvRound v f (',' :: ' ' :: (dumpsO (JObj.cons k2 v2 t2) ++ rest)) hv hfv
          (guard_comma _),
        dropWhile_comma, dropWhile_dumpsO_cons k2 v2 t2 rest,
        pfRound (JObj.cons k2 v2 t2) f rest ht (by simp) hft, mk_data]

/-- Scanning the serialized elements of a nonempty well-formed array
(closing bracket included) recovers exactly those elements. -/
theorem peRound : ∀ (a : JArr) (f : Nat) (rest : List Char), wfA a = true → a ≠ .nil →
    jsizeA a ≤ f → numExtGuard rest = true →
    parseElems f (dumpsA a ++ rest) = some (a, rest)
  | .nil, _, _, _, hne, _, _ => absurd rfl hne
  | a, 0, _, _, _, hf, _ => absurd (Nat.lt_of_lt_of_le (jsizeA_pos a) hf) (by omega)
  | .cons h1 t, f+1, rest, hw, _, hf, hg => by
    have hv : wfV h1 = true := by
      have h' := hw
      simp only [wfA, Bool.and_eq_true] at h'
      exact h'.1
    have ht : wfA t = true := by
      have h' := hw
      simp only [wfA, Bool.and_eq_true] at h'
      exact h'.2
    have hfv : jsize h1 ≤ f := by
      rw [show jsizeA (JArr.cons h1 t) = 1 + jsize h1 + jsizeA t from by
            simp only [jsizeA]] at hf
      omega
    cases t with
    | nil =>
      rw [dumpsA_single,
        show (dumpsV h1 ++ [']']) ++ rest = dumpsV h1 ++ (']' :: rest) from by simp]
      simp only [parseElems, pvRound h1 f (']' :: rest) hv hfv (guard_rbracket rest),
        dropWhile_rbracket]
    | cons h2 t2 =>
      have hw2 : wfV h2 = true := by
        have h' := ht
        simp only [wfA, Bool.and_eq_true] at h'
        exact h'.1
      have hft : jsizeA (JArr.cons h2 t2) ≤ f := by
        rw [show jsizeA (JArr.cons h1 (JArr.cons h2 t2)) =
              1 + jsize h1 + jsizeA (JArr.cons h2 t2) from by simp only [jsizeA]] at hf
        omega
      rw [dumpsA_cons2,
        show ((dumpsV h1 ++ ", ".data) ++ dumpsA (JArr.cons h2 t2)) ++ rest =
          dumpsV h1 ++ (',' :: ' ' :: (dumpsA (JArr.cons h2 t2) ++ rest)) from by
            rw [show ", ".data = [',', ' '] from rfl]
            simp]
      simp only [parseElems,
        pvRound h1 f (',' :: ' ' :: (dumpsA (JArr.cons h2 t2) ++ rest)) hv hfv
          (guard_comma _),
        dropWhile_comma, dropWhile_space, dropWhile_dumpsA_cons h2 t2 rest hw2,
        peRound (JArr.cons h2 t2) f rest ht (by simp) hft hg]

end

/-- `json.loads(json.dumps(j)) = j` for every well-formed value. -/
theorem loadsL_dumpsV (j : Json) (h : wfV j = true) : loadsL (dumpsV j) = some j := by
  obtain ⟨c, t, hd, hn, _, _⟩ := dumpsV_head j h
  have hdrop : List.dropWhile isJWs (dumpsV j) = dumpsV j := by
    rw [hd]
    simp [List.dropWhile_cons, hn]
  have hfuel : jsize j ≤ 2 * (dumpsV j).length + 2 := by
    have := jsize_le_dumps j h
    omega
  have hpv := pvRound j (2 * (dumpsV j).length + 2) [] h hfuel rfl
  rw [List.append_nil] at hpv
  rw [loadsL]
  simp only [hdrop, hpv]
  rfl

/-! ## Locating the escaped body inside the fetch snippet -/

theorem escQ_append : ∀ (a b : List Char), escQ (a ++ b) = escQ a ++ escQ b
  | [], b => rfl
  | c :: t, b => by
    rw [List.cons_append, escQ, escQ, escQ_append t b, List.append_assoc]

theorem escQ_no_rbrace : ∀ (a : List Char), '\x7d' ∉ a → '\x7d' ∉ escQ a
  | [], _ => by simp [escQ]
  | c :: t, h => by
    have hc : c ≠ '\x7d' := fun he => h (he ▸ List.mem_cons_self c t)
    have ht : '\x7d' ∉ escQ t := escQ_no_rbrace t (fun hm => h (List.mem_cons_of_mem c hm))
    rw [escQ]
    by_cases hq : c = '"'
    · rw [if_pos hq]
      intro hm
      rcases List.mem_append.mp hm with hm | hm
      · exact absurd hm (by decide)
      · exact ht hm
    · rw [if_neg hq]
      intro hm
      rcases List.mem_append.mp hm with hm | hm
      · exact hc (List.mem_singleton.mp hm).symm
      · exact ht hm

theorem escQ_cons_form (m0 : Char) (mr : List Char) :
    ∃ e0 et, escQ (m0 :: mr) = e0 :: et := by
  rw [escQ]
  by_cases hq : m0 = '"'
  · rw [if_pos hq]; exact ⟨'\\', '"' :: escQ mr, rfl⟩
  · rw [if_neg hq]; exact ⟨m0, escQ mr, rfl⟩

theorem splitNonBrace_append : ∀ (a b : List Char), '\x7d' ∉ a →
    splitNonBrace (a ++ '\x7d' :: b) = (a, '\x7d' :: b)
  | [], b, _ => by rw [List.nil_append, splitNonBrace, if_pos rfl]
  | c :: t, b, h => by
    have hc : c ≠ '\x7d' := fun he => h (he ▸ List.mem_cons_self c t)
    rw [List.cons_append, splitNonBrace, if_neg hc]
    have := splitNonBrace_append t b (fun hm => h (List.mem_cons_of_mem c hm))
    simp [this]

theorem dropLit_append (l x : List Char) : dropLit l (l ++ x) = some x := by
  rw [dropLit, if_pos (isPrefixOf_self_append l x), List.drop_left]

/-- Every serialized object ends with its closing brace. -/
theorem dumpsO_ends : ∀ (o : JObj), ∃ mid, dumpsO o = mid ++ ['\x7d']
  | .nil => ⟨[], by simp [dumpsO_nil]⟩
  | .cons k v .nil =>
    ⟨'"' :: escJ k.data ++ "\": ".data ++ dumpsV v, by
      rw [dumpsO_single]⟩
  | .cons k v (.cons k2 v2 t) => by
    obtain ⟨mid, hm⟩ := dumpsO_ends (JObj.cons k2 v2 t)
    exact ⟨'"' :: escJ k.data ++ "\": ".data ++ dumpsV v ++ ", ".data ++ mid, by
      rw [dumpsO_cons2, hm]
      simp⟩

/-- `re.search` skips a prefix on which the matcher fails everywhere. -/
theorem searchWith_append (m : List Char → Option (List Char)) :
    ∀ (a b : List Char), (∀ k, k < a.length → m (List.drop k a ++ b) = none) →
    searchWith m (a ++ b) = searchWith m b
  | [], b, _ => by rw [List.nil_append]
  | c :: t, b, ha => by
    rw [List.cons_append, searchWith]
    have h0 : m (c :: (t ++ b)) = none := by
      have := ha 0 (by simp)
      simpa using this
    rw [h0]
    exact searchWith_append m t b (fun k hk => by
      have := ha (k+1) (by simpa using hk)
      simpa using this)

theorem dropWhile_sp_quote (y : List Char) :
    List.dropWhile isReWs (' ' :: '"' :: y) = '"' :: y := by
  simp [List.dropWhile_cons, isReWs]

/-- The body scan succeeds at the seam the rewrite lays down, provided
the escaped body holds no closing brace before its final one. -/
theorem matchBodyAt_seam (body mid : List Char)
    (hsh : body = '\x7b' :: (mid ++ ['\x7d'])) (hnb : '\x7d' ∉ mid) (hne : mid ≠ []) :
    matchBodyAt ("\"body\": \"".data ++ (escQ body ++ fetchSuf)) = some (escQ body) := by
  obtain ⟨m0, mr, rfl⟩ : ∃ m0 mr, mid = m0 :: mr := by
    cases mid with
    | nil => exact absurd rfl hne
    | cons a b => exact ⟨a, b, rfl⟩
  obtain ⟨e0, et, hesc⟩ := escQ_cons_form m0 mr
  have hescb : escQ body = '\x7b' :: (escQ (m0 :: mr) ++ ['\x7d']) := by
    rw [hsh]
    simp [escQ, escQ_append]
  have hsp : splitNonBrace (escQ (m0 :: mr) ++ '\x7d' :: fetchSuf) =
      (escQ (m0 :: mr), '\x7d' :: fetchSuf) :=
    splitNonBrace_append _ _ (escQ_no_rbrace _ hnb)
  have hinput : "\"body\": \"".data ++ (escQ body ++ fetchSuf) =
      "\"body\":".data ++ (' ' :: '"' :: (escQ body ++ fetchSuf)) := rfl
  have hfs : fetchSuf =
      '"' :: ",\n  \"method\": \"POST\",\n  \"mode\": \"cors\",\n  \"credentials\": \"include\"\n\x7d);".data :=
    rfl
  rw [hinput, matchBodyAt, dropLit_append]
  simp only [dropWhile_sp_quote, hescb, List.cons_append, List.append_assoc,
    List.singleton_append, List.nil_append]
  rw [hesc] at hsp ⊢
  rw [hsp]
  rw [hfs]
  rfl

/-- The body-decoding steps of `extract_fetch_data` (src/main.py lines
66-71): the `"body":\s*"(\x7b[^\x7d]+\x7d)"` search, the `\"` → `"`
unescaping, and `json.loads` of the group. -/
def bodyDecode (fetch_text : List Char) : Option Json :=
  match searchWith matchBodyAt fetch_text with
  | none => none
  | some body_grp => loadsL (pyReplace body_grp ['\\', '"'] ['"'])

/-- The rewritten textual form, as the characters the extractor scans. -/
theorem edit_text_shape (fd : FetchData) (c n : String) :
    (edit_message_without_mark fd c n).1.data =
      fetchPre fd ++ ("\"body\": \"".data ++
        (escQ (dumpsV (Json.obj (newBody fd.body c n))) ++ fetchSuf)) := by
  rw [edit_message_without_mark]
  simp only [pyReplace_escQ]
  simp [List.append_assoc]

/-- C6 (amended): the escape/unescape pair round-trips, and the decode
recovers the content and nonce that were set, provided the serialized
new body holds exactly one closing brace (its final one) and the body
scan finds no earlier match inside the snippet's prefix; without these
provisos the claim fails (see the counterexample). -/
theorem body_roundtrip_spec (fd : FetchData) (c n : String)
    (hwf : wfO (newBody fd.body c n) = true)
    (hone : (dumpsV (Json.obj (newBody fd.body c n))).count '\x7d' = 1)
    (hpre : ∀ k, k < (fetchPre fd).length →
      matchBodyAt (List.drop k (fetchPre fd) ++ ("\"body\": \"".data ++
        (escQ (dumpsV (Json.obj (newBody fd.body c n))) ++ fetchSuf))) = none) :
    bodyDecode (edit_message_without_mark fd c n).1.data =
      some (Json.obj (newBody fd.body c n)) ∧
    (newBody fd.body c n).lookup "content" = some (.str c) ∧
    (newBody fd.body c n).lookup "nonce" = some (.str n) := by
  refine ⟨?_, ?_, ?_⟩
  · obtain ⟨k0, v0, t0, hcons⟩ : ∃ a b d, newBody fd.body c n = JObj.cons a b d := by
      rcases hx : newBody fd.body c n with _ | ⟨a, b, d⟩
      · rw [newBody] at hx
        exact absurd hx (JObj.set_ne_nil _ _ _)
      · exact ⟨a, b, d, rfl⟩
    obtain ⟨mid, hm⟩ := dumpsO_ends (newBody fd.body c n)
    have hsh : dumpsV (Json.obj (newBody fd.body c n)) = '\x7b' :: (mid ++ ['\x7d']) := by
      rw [dumpsV_obj, hm]
    have hnbm : '\x7d' ∉ mid := by
      rw [hsh] at hone
      simp [List.count_cons, List.count_append] at hone
      exact List.count_eq_zero.mp hone
    have hmidne : mid ≠ [] := by
      intro h0
      rw [h0, List.nil_append, hcons] at hm
      cases t0 with
      | nil => rw [dumpsO_single] at hm; simp at hm
      | cons k1 v1 t1 => rw [dumpsO_cons2] at hm; simp at hm
    have hseam := matchBodyAt_seam (dumpsV (Json.obj (newBody fd.body c n))) mid hsh
      hnbm hmidne
    have hwfV : wfV (Json.obj (newBody fd.body c n)) = true := by
      simp only [wfV]
      exact hwf
    rw [edit_text_shape, bodyDecode,
      searchWith_append matchBodyAt (fetchPre fd) _ hpre,
      show "\"body\": \"".data ++
          (escQ (dumpsV (Json.obj (newBody fd.body c n))) ++ fetchSuf) =
        '"' :: ("body\": \"".data ++
          (escQ (dumpsV (Json.obj (newBody fd.body c n))) ++ fetchSuf)) from rfl,
      searchWith]
    rw [show '"' :: ("body\": \"".data ++
          (escQ (dumpsV (Json.obj (newBody fd.body c n))) ++ fetchSuf)) =
        "\"body\": \"".data ++
          (escQ (dumpsV (Json.obj (newBody fd.body c n))) ++ fetchSuf) from rfl,
      hseam]
    simp only [pyReplace_unesc_escQ, loadsL_dumpsV (Json.obj (newBody fd.body c n)) hwfV]
  · rw [newBody, JObj.lookup_set_ne _ "nonce" "content" _ (by decide),
      JObj.lookup_set_self]
  · rw [newBody, JObj.lookup_set_self]

/-- C6 counterexample: on the Scenario-A capture with a new content of
`\x7d` (a single closing brace), the claim's universally-quantified
round trip fails: the serialized body's first closing brace sits inside
the content string, the `(\x7b[^\x7d]+\x7d)"` scan finds no match
anywhere in the snippet, and the decode recovers nothing at all. -/
theorem body_roundtrip_counterexample :
    bodyDecode (edit_message_without_mark fdA "\x7d" "999").1.data = none := by
  have hnb : newBody fdA.body "\x7d" "999" =
      JObj.cons "content" (.str "\x7d") (JObj.cons "nonce" (.str "999") JObj.nil) := by
    decide
  have hdv : dumpsV (Json.obj (newBody fdA.body "\x7d" "999")) =
      "\x7b\"content\": \"\x7d\", \"nonce\": \"999\"\x7d".data := by
    rw [dumpsV, show jsize (Json.obj (newBody fdA.body "\x7d" "999")) = 6 from by
      rw [hnb]; simp [jsize, jsizeO]]
    decide
  have hfp : fetchPre fdA =
      ("fetch(\"https://discord.com/api/v9/channels/123/messages\", \x7b\n  \"headers\": \x7b\n  \"authorization\": \"X\"\n\x7d,\n  \"referrer\": \"https://discord.com/channels/@me\",\n  \"referrerPolicy\": \"strict-origin-when-cross-origin\",\n  ").data := by
    rw [fetchPre, dumpsInd2, show jsize (Json.obj fdA.headers) = 4 from by
      simp [fdA, jsize, jsizeO]]
    decide
  rw [edit_text_shape, hfp, hdv]
  decide

/-- A minimal captured record for exercising the amended round trip. -/
def fdW : FetchData :=
  ⟨"https://discord.com/api/v9/channels/1/messages", .nil,
   .cons "nonce" (.str "1") .nil, .str "1", .str ""⟩

/-- C6 witness: on a concrete capture whose rewritten body serializes
with a single closing brace, the decode recovers the content and nonce
that were set. -/
theorem body_roundtrip_spec_witness :
    bodyDecode (edit_message_without_mark fdW "hi" "9").1.data =
      some (Json.obj (newBody fdW.body "hi" "9")) ∧
    (newBody fdW.body "hi" "9").lookup "content" = some (.str "hi") ∧
    (newBody fdW.body "hi" "9").lookup "nonce" = some (.str "9") :=
  body_roundtrip_spec fdW "hi" "9"
    (by
      have hnb : newBody fdW.body "hi" "9" =
          JObj.cons "nonce" (.str "9") (JObj.cons "content" (.str "hi") JObj.nil) := by
        decide
      rw [hnb]
      simp only [wfO, wfV]
      decide)
    (by
      have hnb : newBody fdW.body "hi" "9" =
          JObj.cons "nonce" (.str "9") (JObj.cons "content" (.str "hi") JObj.nil) := by
        decide
      rw [dumpsV, show jsize (Json.obj (newBody fdW.body "hi" "9")) = 6 from by
        rw [hnb]; simp [jsize, jsizeO]]
      decide)
    (by
      have hdv : dumpsV (Json.obj (newBody fdW.body "hi" "9")) =
          "\x7b\"nonce\": \"9\", \"content\": \"hi\"\x7d".data := by
        rw [dumpsV, show jsize (Json.obj (newBody fdW.body "hi" "9")) = 6 from by
          rw [show newBody fdW.body "hi" "9" =
              JObj.cons "nonce" (.str "9") (JObj.cons "content" (.str "hi") JObj.nil) from by
            decide]
          simp [jsize, jsizeO]]
        decide
      have hfp : fetchPre fdW =
          ("fetch(\"https://discord.com/api/v9/channels/1/messages\", \x7b\n  \"headers\": \x7b\x7d,\n  \"referrer\": \"https://discord.com/channels/@me\",\n  \"referrerPolicy\": \"strict-origin-when-cross-origin\",\n  ").data := by
        rw [fetchPre, dumpsInd2, show jsize (Json.obj fdW.headers) = 2 from by
          simp [fdW, jsize, jsizeO]]
        decide
      simp only [hdv, hfp]
      decide)
